import Mathlib

/-!
byteshuf: a two-phase external shuffle of fixed-width records

Shallow embedding of `byteshuf.c`.

* A byte is a natural number, a file is the list of its bytes, a record (`Data`) is the
  list of its `BYTES_PER` bytes.  `BYTES_PER` is a build-time constant that the source
  file does not define; every function that needs it takes it as the parameter `W`.
* The static generator state of `rand64` is threaded explicitly.
* `size_t` arithmetic is written over `Nat`, reduced modulo `2^64` where the source can
  wrap (`rand64`, and `total_entries - 1` in `output_from_partials`).
* Where a `size_t` or `uint64_t` value is stored in an `int`, it goes through `to_int`: the
  two indices passed to `swap_data` and the file count `cnt_output_files`.  The counters
  `nfiles`, `input_idx` and `out_idx`, which only count partial and output files one by
  one, are natural numbers.
* Reading outside an array, dividing by zero and running out of loop fuel give `none`.
  The one place where this is not passed on is the shuffle loop, which has no result to
  pass it in: see `shuffle_loop`.
* Where a claim speaks about the steps of a run rather than its result, the steps are listed
  by a second function that follows the same control flow and takes its states from the
  first: `process_events`, `read_all_events` (reads, spills and printed lines of Phase 1)
  and `fill_draws`, `output_draws`, `phase2_draws` (the draws of Phase 2).
-/

namespace Byteshuf

/-- One record: the `BYTES_PER` bytes of a `Data` struct. -/
abbrev Data := List Nat

/-- The bytes of a file: what is still unread of a file opened for reading, or what has
been written so far to a file opened for writing. -/
abbrev Stream := List Nat

/-- The numeric fields of `struct arguments`. -/
structure arguments where
  verbose : Bool
  per_file : Nat
  chunk_size : Nat
  read_header : Nat
  write_header : Nat
deriving Repr, DecidableEq

/-- `rand64`: the xorshift step on the 64-bit state, returning the value handed to the
caller and the updated state. -/
def rand64 (seed : Nat) : Nat × Nat :=
  let s1 := seed ^^^ (seed >>> 12)
  let s2 := s1 ^^^ ((s1 <<< 25) % 2 ^ 64)
  let s3 := s2 ^^^ (s2 >>> 27)
  ((s3 * 2685821657736338717) % 2 ^ 64, s3)

/-- `fread(ptr, size, nmemb, stream)`: the complete items read, in order, and the rest of
the stream.  A trailing fragment shorter than `size` is consumed and yields no item. -/
def fread (size : Nat) : Nat → Stream → List Data × Stream
  | 0, s => ([], s)
  | n + 1, s =>
    if size = 0 then ([], s)
    else if size ≤ s.length then
      let r := fread size n (s.drop size)
      (s.take size :: r.1, r.2)
    else ([], [])

/-- The effect on the array `data` of reading `items` to the address `&data[off]`. -/
def store (data : List Data) (off : Nat) (items : List Data) : List Data :=
  data.take off ++ items ++ data.drop (off + items.length)

/-- The conversion of a `size_t` or `uint64_t` value to `int`: the low 32 bits
(`4294967296 = 2^32`) read as a two's-complement number, which is what gcc and clang do with
a value that does not fit. -/
def to_int (x : Nat) : Int :=
  if x % 4294967296 < 2147483648 then ((x % 4294967296 : Nat) : Int)
  else ((x % 4294967296 : Nat) : Int) - 4294967296

/-- `swap_data`, with its `int` parameters.  An index that is negative or past the end of
`data` is an access outside the array: `none`. -/
def swap_data (data : List Data) (x y : Int) : Option (List Data) :=
  if 0 ≤ x ∧ 0 ≤ y then
    match data[x.toNat]?, data[y.toNat]? with
    | some a, some b => some ((data.set x.toNat b).set y.toNat a)
    | _, _ => none
  else none

/-- The state Phase 1 works on: the generator state, the chunk buffer `data`, the counter
`*nfiles`, and the partial files created so far, each with the index in its name. -/
structure Phase1 where
  seed : Nat
  data : List Data
  nfiles : Nat
  files : List (Nat × Stream)
deriving Repr, DecidableEq

/-- The loop `for (i = 0; i < count; i++) swap_data(data, i, rand64() % count)`, with `n`
iterations left to run from index `i`.  Both arguments, a `size_t` and a `uint64_t`, are
converted to the `int` parameters of `swap_data`.  `shuffle_and_save` returns nothing that
could tell of a call outside the array: after such a call the loop goes on with the buffer
as it was.  No call is outside the array when the chunk has at most `2^31` records
(`foldlM_swap_defined`, `swap_pairs_bounds`). -/
def shuffle_loop (count : Nat) : Nat → Nat → Nat → List Data → Nat × List Data
  | 0, _, seed, data => (seed, data)
  | n + 1, i, seed, data =>
    let r := rand64 seed
    shuffle_loop count n (i + 1) r.2
      ((swap_data data (to_int i) (to_int (r.1 % count))).getD data)

/-- `shuffle_and_save`: the file name takes the current value of `*nfiles`, which is
incremented; the first `count` records are shuffled in place and, if there are any,
written to that file. -/
def shuffle_and_save (count : Nat) (st : Phase1) : Phase1 :=
  let r := shuffle_loop count count 0 st.seed st.data
  { seed := r.1
    data := r.2
    nfiles := st.nfiles + 1
    files := if count ≠ 0 then st.files ++ [(st.nfiles, (r.2.take count).flatten)]
             else st.files }

/-- The do-while loop of `process_input_file`.  Each further iteration follows a read that
returned at least one record, so `fuel` one more than the length of the file is enough. -/
def process_loop (W : Nat) (args : arguments) :
    Nat → Stream → Nat → Phase1 → Option (Nat × Phase1)
  | 0, _, _, _ => none
  | fuel + 1, fin, leftovers, st =>
    let read_size := args.chunk_size - leftovers
    let r := fread W read_size fin
    let entries_read := r.1.length
    let st1 : Phase1 := { st with data := store st.data leftovers r.1 }
    let st2 := if entries_read = read_size then shuffle_and_save args.chunk_size st1 else st1
    let leftovers1 := if entries_read = read_size then 0 else entries_read
    if leftovers1 = 0 ∧ entries_read ≠ 0 then process_loop W args fuel r.2 leftovers1 st2
    else some (if entries_read ≠ 0 then leftovers1 else 0, st2)

/-- `process_input_file`: returns the new leftover count. -/
def process_input_file (W : Nat) (args : arguments) (fin : Stream) (leftovers : Nat)
    (st : Phase1) : Option (Nat × Phase1) :=
  process_loop W args (fin.length + 1) fin leftovers st

/-- The header skip done right after opening a source:
`fread(header, sizeof(uint8_t), args->read_header, fin)`. -/
def skip_header (args : arguments) (fin : Stream) : Stream :=
  if args.read_header ≠ 0 then fin.drop args.read_header else fin

/-- The `readdir` loop of `read_all_input_files` over the directory entries in enumeration
order, each a name and the content of the file. -/
def read_directory (W : Nat) (args : arguments) :
    List (List Char × Stream) → Nat → Phase1 → Option (Nat × Phase1)
  | [], leftovers, st => some (leftovers, st)
  | (d_name, fin) :: rest, leftovers, st =>
    if d_name.head? = some '.' then read_directory W args rest leftovers st
    else
      match process_input_file W args (skip_header args fin) leftovers st with
      | none => none
      | some (l, st1) => read_directory W args rest l st1

/-- What `args->directory` and `args->input` name: the entries of the directory, and the
content of the single input file. -/
structure Sources where
  directory : Option (List (List Char × Stream))
  input : Option Stream
deriving Repr, DecidableEq

/-- The buffer `malloc(sizeof(Data) * chunk_size)`.  Its content is indeterminate in C; no
slot is spilled before a record has been stored in it, and the embedding fills it with
zero bytes. -/
def malloc_data (W n : Nat) : List Data :=
  List.replicate n (List.replicate W 0)

/-- `read_all_input_files`, started with generator state `seed`: returns the final
leftover count and the state holding the partial files. -/
def read_all_input_files (W : Nat) (args : arguments) (src : Sources) (seed : Nat) :
    Option (Nat × Phase1) :=
  let st0 : Phase1 :=
    { seed := seed, data := malloc_data W args.chunk_size, nfiles := 0, files := [] }
  let afterDir :=
    match src.directory with
    | none => some (0, st0)
    | some entries => read_directory W args entries 0 st0
  match afterDir with
  | none => none
  | some (l, st1) =>
    let afterInput :=
      match src.input with
      | none => some (l, st1)
      | some fin => process_input_file W args (skip_header args fin) l st1
    match afterInput with
    | none => none
    | some (l2, st2) =>
      some (l2, if l2 ≠ 0 then shuffle_and_save l2 st2 else st2)

/-- The state Phase 2 works on: the generator state, the unread content of every open
partial file `partials[i]`, the array `remaining`, the number of `fclose` calls made so far
on each `partials[i]`, and the number of times the read-error message was printed. -/
structure Phase2 where
  seed : Nat
  partials : List Stream
  remaining : List Nat
  closes : List Nat
  errors : Nat
deriving Repr, DecidableEq

/-- The scan `while (pop >= remaining[input_idx]) pop -= remaining[input_idx++]` over the
part of `remaining` from `input_idx` on; `none` when it runs past the end of the array. -/
def scan : List Nat → Nat → Nat → Option Nat
  | [], _, _ => none
  | r :: rs, pop, input_idx =>
    if pop ≥ r then scan rs (pop - r) (input_idx + 1) else some input_idx

/-- `pop_and_save`: `junk` is the indeterminate content of the local `data`, which is what
gets written when the read fails.  Returns the output file and the new state. -/
def pop_and_save (W : Nat) (junk : Data) (fout : Stream) (st : Phase2)
    (total_remaining : Nat) : Option (Stream × Phase2) :=
  if total_remaining = 0 then none
  else
    let r := rand64 st.seed
    match scan st.remaining (r.1 % total_remaining) 0 with
    | none => none
    | some input_idx =>
      match st.partials[input_idx]?, st.remaining[input_idx]?, st.closes[input_idx]? with
      | some p, some rem, some c =>
        let rd := fread W 1 p
        let data := rd.1.headD junk
        some (fout ++ data,
          { seed := r.2
            partials := st.partials.set input_idx rd.2
            remaining := st.remaining.set input_idx (rem - 1)
            closes := if rem - 1 = 0 then st.closes.set input_idx (c + 1) else st.closes
            errors := if rd.1.length ≠ 1 then st.errors + 1 else st.errors })
      | _, _, _ => none

/-- The inner loop of `output_from_partials`,
`for (i = 0; i < entries_per && total_entries != total_saved; i++, total_saved++)`,
with `n` values of `i` left below `entries_per`. -/
def fill_output (W : Nat) (junk : Data) (total_entries : Nat) :
    Nat → Stream → Phase2 → Nat → Option (Stream × Phase2 × Nat)
  | 0, fout, st, total_saved => some (fout, st, total_saved)
  | n + 1, fout, st, total_saved =>
    if total_entries ≠ total_saved then
      match pop_and_save W junk fout st (total_entries - total_saved) with
      | none => none
      | some (fout1, st1) => fill_output W junk total_entries n fout1 st1 (total_saved + 1)
    else some (fout, st, total_saved)

/-- The outer loop of `output_from_partials` with `n` output files left to produce; the
finished output files are collected in the order of `out_idx`. -/
def output_loop (W : Nat) (junk : Data) (args : arguments) (total_entries entries_per : Nat) :
    Nat → Phase2 → Nat → List Stream → Option (List Stream × Phase2 × Nat)
  | 0, st, total_saved, outs => some (outs, st, total_saved)
  | n + 1, st, total_saved, outs =>
    let fout : Stream := if args.write_header ≠ 0 then List.replicate args.write_header 0 else []
    match fill_output W junk total_entries entries_per fout st total_saved with
    | none => none
    | some (fout1, st1, saved1) =>
      output_loop W junk args total_entries entries_per n st1 saved1 (outs ++ [fout1])

/-- The initialiser of `const int cnt_output_files`:
`!args->per_file ? 1 : 1 + (total_entries - 1) / args->per_file`, computed in `size_t` and
converted to `int`. -/
def cnt_output_files (args : arguments) (total_entries : Nat) : Int :=
  if args.per_file = 0 then 1
  else to_int ((1 + ((total_entries + 2 ^ 64 - 1) % 2 ^ 64) / args.per_file) % 2 ^ 64)

/-- `output_from_partials`: returns the output files, the final state and `total_saved`.
The loop `for (int out_idx = 0; out_idx < cnt_output_files; out_idx++)` runs
`cnt_output_files` times, and not at all when that `int` is negative. -/
def output_from_partials (W : Nat) (junk : Data) (args : arguments) (st : Phase2)
    (nfiles : Nat) : Option (List Stream × Phase2 × Nat) :=
  if nfiles = 0 then none
  else
    match st.remaining[nfiles - 1]? with
    | none => none
    | some last =>
      let total_entries := (last + args.chunk_size * (nfiles - 1)) % 2 ^ 64
      let entries_per := if args.per_file = 0 then total_entries else args.per_file
      output_loop W junk args total_entries entries_per
        (cnt_output_files args total_entries).toNat st 0 []

/-- The arrays `partials` and `remaining` as `main` builds them from the result of Phase 1.
A partial file that was never created has nothing to read. -/
def open_partials (args : arguments) (leftovers : Nat) (p1 : Phase1) : Phase2 :=
  let remaining := List.replicate p1.nfiles args.chunk_size
  { seed := p1.seed
    partials := (List.range p1.nfiles).map (fun i => (p1.files.lookup i).getD [])
    remaining := if leftovers ≠ 0 then remaining.set (p1.nfiles - 1) leftovers else remaining
    closes := List.replicate p1.nfiles 0
    errors := 0 }

/-- The body of `main` after argument parsing: Phase 1 from the fixed seed of `rand64`, then
Phase 2 on the partial files. -/
def main (W : Nat) (junk : Data) (args : arguments) (src : Sources) :
    Option (List Stream × Phase2 × Nat) :=
  match read_all_input_files W args src 1070372 with
  | none => none
  | some (leftovers, p1) =>
    output_from_partials W junk args (open_partials args leftovers p1) p1.nfiles

/-- The values returned by `n` successive calls of `rand64` starting in state `seed`. -/
def rand_values : Nat → Nat → List Nat
  | 0, _ => []
  | n + 1, seed => (rand64 seed).1 :: rand_values n (rand64 seed).2

/-- The generator state after `n` calls of `rand64` starting in state `seed`. -/
def rand_state : Nat → Nat → Nat
  | 0, seed => seed
  | n + 1, seed => rand_state n (rand64 seed).2

/-- The pairs of `int` arguments that `shuffle_and_save` hands to `swap_data` for a chunk of
`count` records: `i` and `next() % count` after their conversion, for `i = 0 .. count - 1`. -/
def swap_pairs (count seed : Nat) : List (Int × Int) :=
  ((List.range' 0 count).map to_int).zip
    ((rand_values count seed).map (fun r => to_int (r % count)))

/-- Every slot of the chunk buffer holds `W` bytes. -/
def width_ok (W : Nat) (data : List Data) : Prop := ∀ d ∈ data, d.length = W

/-- A small Phase 2 state: two partial files of one-byte records with 2 and 1 records left. -/
def sample_merge_state : Phase2 :=
  { seed := 1070372, partials := [[5, 6], [7]], remaining := [2, 1], closes := [0, 0],
    errors := 0 }

/-- The bookkeeping Phase 2 relies on, after `saved` of `total` records have been written,
`init` being the counts Phase 2 started from: the arrays have one length, the counts left
sum to `total - saved` and are at most the initial ones, every partial file holds exactly as
many `W`-byte records as its count says, a partial file has been closed once if it had
records and its count has reached zero and not at all otherwise, and no read has failed. -/
def merge_inv (W : Nat) (init : List Nat) (total saved : Nat) (st : Phase2) : Prop :=
  st.partials.length = st.remaining.length ∧ st.closes.length = st.remaining.length ∧
  saved + st.remaining.sum = total ∧
  (∀ i, i < st.remaining.length →
    (st.partials.getD i []).length = st.remaining.getD i 0 * W) ∧
  (∀ i, i < st.remaining.length →
    st.closes.getD i 0 = if st.remaining.getD i 0 = 0 ∧ 0 < init.getD i 0 then 1 else 0) ∧
  st.errors = 0 ∧ init.length = st.remaining.length ∧
  (∀ i, i < st.remaining.length → st.remaining.getD i 0 ≤ init.getD i 0)

/-- Arguments with chunk size 4 and no input header, for the worked examples. -/
def sample_args (per_file write_header : Nat) : arguments :=
  { verbose := false, per_file := per_file, chunk_size := 4, read_header := 0,
    write_header := write_header }

/-- The Phase 2 state `main` sets up for the given partial files and counts, for the worked
examples. -/
def sample_state (partials : List Stream) (remaining : List Nat) : Phase2 :=
  { seed := 1070372, partials := partials, remaining := remaining,
    closes := List.replicate remaining.length 0, errors := 0 }

/-- A Phase 1 state with a chunk of `2^31 + 1 = 2147483649` one-byte records in the
buffer. -/
def long_chunk : Phase1 :=
  { seed := 1070372, data := List.replicate 2147483649 [0], nfiles := 0, files := [] }

/-- Arguments with chunk size `2^31 = 2147483648`, no headers. -/
def long_args (per_file : Nat) : arguments :=
  { verbose := false, per_file := per_file, chunk_size := 2147483648, read_header := 0,
    write_header := 0 }

/-- The Phase 2 state `main` sets up for one partial file of `2^31` one-byte records. -/
def long_file : Phase2 :=
  sample_state [List.replicate 2147483648 7] [2147483648]

/-- The Phase 2 state `main` sets up for two partial files of `2^31` one-byte records
each. -/
def long_files : Phase2 :=
  sample_state [List.replicate 2147483648 7, List.replicate 2147483648 8]
    [2147483648, 2147483648]

/-- The whole `W`-byte records of a stream, in order: what `fread` returns when asked for as
many records as the stream holds. -/
def records (W : Nat) (s : Stream) : List Data :=
  (fread W (s.length / W) s).1

/-- What Phase 1 can print: the line `Read %zd entries and saved to %s` of
`shuffle_and_save`, with the count and the index in the file name. -/
inductive Message where
  | read_saved (count file : Nat)
deriving Repr, DecidableEq

/-- The steps of Phase 1 that the claims speak about: a call
`fread(&data[leftovers], sizeof(Data), read_size, fin)` returning `entries_read`, a call
`shuffle_and_save(args, count, data, nfiles)` made when `*nfiles` is `file`, and a `printf`. -/
inductive Event where
  | read (leftovers read_size entries_read : Nat)
  | spill (count file : Nat)
  | print (text : Message)
deriving Repr, DecidableEq

/-- The events of one call of `shuffle_and_save`: the call itself, and the line it prints
when `args->verbose` is set. -/
def shuffle_events (args : arguments) (count : Nat) (st : Phase1) : List Event :=
  Event.spill count st.nfiles ::
    (if args.verbose then [Event.print (Message.read_saved count st.nfiles)] else [])

/-- The events of the loop of `process_input_file`, iteration by iteration; the states are
those of `process_loop`. -/
def process_events (W : Nat) (args : arguments) :
    Nat → Stream → Nat → Phase1 → List Event
  | 0, _, _, _ => []
  | fuel + 1, fin, leftovers, st =>
    let read_size := args.chunk_size - leftovers
    let r := fread W read_size fin
    let entries_read := r.1.length
    let st1 : Phase1 := { st with data := store st.data leftovers r.1 }
    let st2 := if entries_read = read_size then shuffle_and_save args.chunk_size st1 else st1
    let leftovers1 := if entries_read = read_size then 0 else entries_read
    let here := Event.read leftovers read_size entries_read ::
      (if entries_read = read_size then shuffle_events args args.chunk_size st1 else [])
    if leftovers1 = 0 ∧ entries_read ≠ 0 then
      here ++ process_events W args fuel r.2 leftovers1 st2
    else here

/-- The events of the `readdir` loop of `read_all_input_files`. -/
def read_directory_events (W : Nat) (args : arguments) :
    List (List Char × Stream) → Nat → Phase1 → List Event
  | [], _, _ => []
  | (d_name, fin) :: rest, leftovers, st =>
    if d_name.head? = some '.' then read_directory_events W args rest leftovers st
    else
      process_events W args ((skip_header args fin).length + 1) (skip_header args fin)
          leftovers st ++
        match process_input_file W args (skip_header args fin) leftovers st with
        | none => []
        | some (l, st1) => read_directory_events W args rest l st1

/-- The events of `read_all_input_files`: the directory, the single input file, the final
spill. -/
def read_all_events (W : Nat) (args : arguments) (src : Sources) (seed : Nat) : List Event :=
  let st0 : Phase1 :=
    { seed := seed, data := malloc_data W args.chunk_size, nfiles := 0, files := [] }
  let dirEvents :=
    match src.directory with
    | none => []
    | some entries => read_directory_events W args entries 0 st0
  let afterDir :=
    match src.directory with
    | none => some (0, st0)
    | some entries => read_directory W args entries 0 st0
  match afterDir with
  | none => dirEvents
  | some (l, st1) =>
    let inputEvents :=
      match src.input with
      | none => []
      | some fin =>
        process_events W args ((skip_header args fin).length + 1) (skip_header args fin) l st1
    let afterInput :=
      match src.input with
      | none => some (l, st1)
      | some fin => process_input_file W args (skip_header args fin) l st1
    match afterInput with
    | none => dirEvents ++ inputEvents
    | some (l2, st2) =>
      dirEvents ++ inputEvents ++ (if l2 ≠ 0 then shuffle_events args l2 st2 else [])

/-- The shuffle loop of `shuffle_and_save` with the values `next() % count` given as the list
`draws`: position `i` is swapped with position `draws[i]`, for `i = 0, 1, ..`, both passed
to `swap_data` as `int`. -/
def shuffle_with (draws : List Nat) (data : List Data) : List Data :=
  ((List.range draws.length).zip draws).foldl
    (fun d p => (swap_data d (to_int p.1) (to_int p.2)).getD d) data

/-- All sequences of `n` draws with values below `count`. -/
def all_draws (count : Nat) : Nat → List (List Nat)
  | 0 => [[]]
  | n + 1 => (List.range count).flatMap (fun a => (all_draws count n).map (fun rest => a :: rest))

/-- The number of sequences of `count` draws that turn the chunk `data` into `target`. -/
def draws_giving (count : Nat) (data target : List Data) : Nat :=
  ((all_draws count count).filter (fun ds => decide (shuffle_with ds data = target))).length


/-- Every printed line among the events is the `Read .. entries and saved` line of a spill
that is among them, and lines are printed in verbose mode only. -/
def prints_ok (args : arguments) (evs : List Event) : Prop :=
  ∀ m, Event.print m ∈ evs →
    args.verbose = true ∧ ∃ count file, m = Message.read_saved count file ∧
      Event.spill count file ∈ evs

/-- What one call of `pop_and_save` draws: the index `input_idx` it selects and the record it
writes to the output file. -/
def pop_draw (W : Nat) (junk : Data) (st : Phase2) (total_remaining : Nat) :
    Option (Nat × Data) :=
  if total_remaining = 0 then none
  else
    match scan st.remaining ((rand64 st.seed).1 % total_remaining) 0 with
    | none => none
    | some input_idx =>
      match st.partials[input_idx]? with
      | some p => some (input_idx, (fread W 1 p).1.headD junk)
      | none => none

/-- The draws of the inner loop of `output_from_partials`, in order; the states are those of
`pop_and_save`. -/
def fill_draws (W : Nat) (junk : Data) (total_entries : Nat) :
    Nat → Phase2 → Nat → List (Nat × Data)
  | 0, _, _ => []
  | n + 1, st, total_saved =>
    if total_entries ≠ total_saved then
      match pop_draw W junk st (total_entries - total_saved),
          pop_and_save W junk [] st (total_entries - total_saved) with
      | some d, some (_, st1) => d :: fill_draws W junk total_entries n st1 (total_saved + 1)
      | _, _ => []
    else []

/-- The draws of the outer loop of `output_from_partials`, output file after output file; the
states are those of `fill_output`. -/
def output_draws (W : Nat) (junk : Data) (args : arguments) (total_entries entries_per : Nat) :
    Nat → Phase2 → Nat → List (Nat × Data)
  | 0, _, _ => []
  | n + 1, st, total_saved =>
    fill_draws W junk total_entries entries_per st total_saved ++
      match fill_output W junk total_entries entries_per
          (if args.write_header ≠ 0 then List.replicate args.write_header 0 else []) st
          total_saved with
      | none => []
      | some (_, st1, saved1) => output_draws W junk args total_entries entries_per n st1 saved1

/-- All draws of `output_from_partials`, in the order in which the records are written. -/
def phase2_draws (W : Nat) (junk : Data) (args : arguments) (st : Phase2) (nfiles : Nat) :
    List (Nat × Data) :=
  if nfiles = 0 then []
  else
    match st.remaining[nfiles - 1]? with
    | none => []
    | some last =>
      let total_entries := (last + args.chunk_size * (nfiles - 1)) % 2 ^ 64
      let entries_per := if args.per_file = 0 then total_entries else args.per_file
      output_draws W junk args total_entries entries_per
        (cnt_output_files args total_entries).toNat st 0


/-- The records that the draws take from partial file `i`, in the order of the draws. -/
def drawn_from (i : Nat) (draws : List (Nat × Data)) : List Data :=
  (draws.filter (fun d => decide (d.1 = i))).map Prod.snd

/-- A Phase 1 state with the chunk `[1], [2], [3]` of one-byte records in the buffer, for the
worked examples. -/
def sample_chunk : Phase1 :=
  { seed := 1070372, data := [[1], [2], [3]], nfiles := 0, files := [] }

/-! ## Lemmas -/

theorem perm_set_set {α : Type} (l : List α) (x y : Nat) (hx : x < l.length)
    (hy : y < l.length) : ((l.set x l[y]).set y l[x]).Perm l := by
  classical
  rw [List.perm_iff_count]
  intro c
  have hy2 : y < (l.set x l[y]).length := by simpa using hy
  rw [List.count_set _ _ _ _ hy2, List.count_set _ _ _ _ hx, List.getElem_set]
  have ha : 0 < l.count l[x] := List.count_pos_iff.mpr (List.getElem_mem hx)
  have hb : 0 < l.count l[y] := List.count_pos_iff.mpr (List.getElem_mem hy)
  by_cases hxy : x = y
  · subst hxy
    by_cases hac : l[x] = c
    · subst hac; simp
    · simp [hac]
  · simp only [hxy, if_false]
    by_cases hac : l[x] = c <;> by_cases hbc : l[y] = c <;>
      first
        | (simp [hac, hbc]; done)
        | (simp [hac, hbc]; (try rw [hac] at ha); (try rw [hbc] at hb); omega)

theorem to_int_of_lt (x : Nat) (h : x < 2 ^ 31) : to_int x = (x : Int) := by
  unfold to_int
  have h1 : x % 4294967296 = x := Nat.mod_eq_of_lt (by omega)
  rw [h1, if_pos (by omega)]

theorem to_int_lt (x count : Nat) (h : x < count) : to_int x < (count : Int) := by
  unfold to_int
  have h1 : x % 4294967296 ≤ x := Nat.mod_le x 4294967296
  split <;> omega

theorem swap_data_length (data : List Data) (x y : Int) :
    ((swap_data data x y).getD data).length = data.length := by
  unfold swap_data
  split
  · split <;> simp
  · rfl

theorem swap_data_perm (data : List Data) (x y : Int) :
    ((swap_data data x y).getD data).Perm data := by
  unfold swap_data
  split
  · split
    · rename_i a b hx hy
      obtain ⟨hxl, hxa⟩ := List.getElem?_eq_some_iff.mp hx
      obtain ⟨hyl, hyb⟩ := List.getElem?_eq_some_iff.mp hy
      subst hxa; subst hyb
      exact perm_set_set data x.toNat y.toNat hxl hyl
    · exact List.Perm.refl _
  · exact List.Perm.refl _

theorem swap_data_drop (data : List Data) (x y : Int) (count : Nat) (hx : x < count)
    (hy : y < count) : ((swap_data data x y).getD data).drop count = data.drop count := by
  unfold swap_data
  split
  · have h1 : x.toNat < count := by omega
    have h2 : y.toNat < count := by omega
    split
    · simp [List.drop_set, h1, h2]
    · rfl
  · rfl

theorem rand_values_length (n seed : Nat) : (rand_values n seed).length = n := by
  induction n generalizing seed with
  | zero => rfl
  | succ n ih => simp [rand_values, ih]

theorem shuffle_loop_eq (count n i seed : Nat) (data : List Data) :
    shuffle_loop count n i seed data =
      (rand_state n seed,
        (((List.range' i n).map to_int).zip
            ((rand_values n seed).map (fun r => to_int (r % count)))).foldl
          (fun d p => (swap_data d p.1 p.2).getD d) data) := by
  induction n generalizing i seed data with
  | zero => rfl
  | succ n ih =>
    simp only [shuffle_loop, rand_state, rand_values, List.range'_succ, List.map_cons,
      List.zip_cons_cons, List.foldl_cons]
    exact ih _ _ _

theorem swap_pairs_lt (count seed : Nat) (p : Int × Int) (hp : p ∈ swap_pairs count seed) :
    p.1 < count ∧ p.2 < count := by
  unfold swap_pairs at hp
  have h1 := (List.of_mem_zip hp).1
  have h2 := (List.of_mem_zip hp).2
  obtain ⟨i, hi, hip⟩ := List.mem_map.mp h1
  have hic : i < count := by simpa [List.mem_range'_1] using hi
  constructor
  · rw [← hip]; exact to_int_lt i count hic
  · obtain ⟨r, _, hr⟩ := List.mem_map.mp h2
    rw [← hr]; exact to_int_lt _ count (Nat.mod_lt _ (by omega))

theorem foldl_swap_perm (count : Nat) (ps : List (Int × Int)) (data : List Data)
    (h : ∀ p ∈ ps, p.1 < count ∧ p.2 < count) :
    let r := ps.foldl (fun d p => (swap_data d p.1 p.2).getD d) data
    r.Perm data ∧ r.drop count = data.drop count ∧ r.length = data.length := by
  induction ps generalizing data with
  | nil => simp
  | cons p ps ih =>
    have hp := h p (List.mem_cons_self _ _)
    have ih2 := ih ((swap_data data p.1 p.2).getD data)
      (fun q hq => h q (List.mem_cons_of_mem _ hq))
    simp only [List.foldl_cons]
    refine ⟨ih2.1.trans (swap_data_perm _ _ _), ?_, ?_⟩
    · rw [ih2.2.1, swap_data_drop _ _ _ _ hp.1 hp.2]
    · rw [ih2.2.2, swap_data_length]

theorem foldl_swap_take_perm (count : Nat) (ps : List (Int × Int)) (data : List Data)
    (h : ∀ p ∈ ps, p.1 < count ∧ p.2 < count) :
    ((ps.foldl (fun d p => (swap_data d p.1 p.2).getD d) data).take count).Perm (data.take count) := by
  obtain ⟨hperm, hdrop, _⟩ := foldl_swap_perm count ps data h
  have h3 : ((ps.foldl (fun d p => (swap_data d p.1 p.2).getD d) data).take count ++ data.drop count).Perm
      (data.take count ++ data.drop count) := by
    have e1 := List.take_append_drop count (ps.foldl (fun d p => (swap_data d p.1 p.2).getD d) data)
    rw [hdrop] at e1
    rw [e1, List.take_append_drop]
    exact hperm
  exact (List.perm_append_right_iff _).mp h3

theorem swap_pairs_eq (count seed : Nat) :
    swap_pairs count seed =
      ((List.range count).zip ((rand_values count seed).map (fun r => r % count))).map
        (fun p => (to_int p.1, to_int p.2)) := by
  unfold swap_pairs
  rw [List.range_eq_range', List.zip_map, List.zip_map_right, List.map_map]
  rfl

theorem shuffle_and_save_eq (count : Nat) (st : Phase1) :
    shuffle_and_save count st =
      { seed := rand_state count st.seed
        data := (swap_pairs count st.seed).foldl (fun d p => (swap_data d p.1 p.2).getD d) st.data
        nfiles := st.nfiles + 1
        files :=
          if count ≠ 0 then
            st.files ++ [(st.nfiles,
              (((swap_pairs count st.seed).foldl (fun d p => (swap_data d p.1 p.2).getD d) st.data).take
                count).flatten)]
          else st.files } := by
  unfold shuffle_and_save swap_pairs
  simp only [shuffle_loop_eq]

theorem flatten_length_of_width (W : Nat) (l : List Data) (h : width_ok W l) :
    l.flatten.length = l.length * W := by
  induction l with
  | nil => simp
  | cons a l ih =>
    have ha : a.length = W := h a (List.mem_cons_self _ _)
    have hl : width_ok W l := fun d hd => h d (List.mem_cons_of_mem _ hd)
    simp only [List.flatten_cons, List.length_append, List.length_cons, ih hl, ha]
    rw [Nat.add_mul]; omega

theorem shuffle_and_save_facts (W count : Nat) (st : Phase1) (hc : count ≤ st.data.length)
    (hw : width_ok W st.data) :
    (shuffle_and_save count st).nfiles = st.nfiles + 1 ∧
    (shuffle_and_save count st).data.length = st.data.length ∧
    width_ok W (shuffle_and_save count st).data ∧
    (count ≠ 0 → ∃ bytes, (shuffle_and_save count st).files = st.files ++ [(st.nfiles, bytes)] ∧
      bytes.length = count * W) := by
  rw [shuffle_and_save_eq]
  obtain ⟨hperm, _, hlen⟩ :=
    foldl_swap_perm count (swap_pairs count st.seed) st.data (swap_pairs_lt count st.seed)
  have hw2 : width_ok W
      ((swap_pairs count st.seed).foldl (fun d p => (swap_data d p.1 p.2).getD d) st.data) :=
    fun d hd => hw d (hperm.mem_iff.mp hd)
  refine ⟨rfl, hlen, hw2, ?_⟩
  intro hne
  refine ⟨(((swap_pairs count st.seed).foldl (fun d p => (swap_data d p.1 p.2).getD d) st.data).take
    count).flatten, by simp [hne], ?_⟩
  rw [flatten_length_of_width W _ (fun d hd => hw2 d (List.mem_of_mem_take hd))]
  simp only [List.length_take]
  rw [hlen, Nat.min_eq_left hc]

theorem fread_width (W n : Nat) (s : Stream) : width_ok W (fread W n s).1 := by
  induction n generalizing s with
  | zero => intro d hd; simp [fread] at hd
  | succ n ih =>
    intro d hd
    unfold fread at hd
    split at hd
    · simp at hd
    · split at hd
      · rename_i hle
        simp only [List.mem_cons] at hd
        rcases hd with h | h
        · rw [h, List.length_take]; omega
        · exact ih _ d h
      · simp at hd

theorem fread_full (W n : Nat) (s : Stream) (hW : 0 < W) (h : n * W ≤ s.length) :
    (fread W n s).1.length = n ∧ (fread W n s).2 = s.drop (n * W) ∧
      (fread W n s).1.flatten = s.take (n * W) := by
  induction n generalizing s with
  | zero => simp [fread]
  | succ n ih =>
    have hle : W ≤ s.length := by rw [Nat.succ_mul] at h; omega
    have h2 : n * W ≤ (s.drop W).length := by
      rw [List.length_drop, Nat.succ_mul] at *; omega
    obtain ⟨i1, i2, i3⟩ := ih (s.drop W) h2
    unfold fread
    rw [if_neg (by omega), if_pos hle]
    refine ⟨by simp [i1], ?_, ?_⟩
    · simp only [i2, List.drop_drop]
      congr 1; rw [Nat.succ_mul]; omega
    · simp only [List.flatten_cons, i3]
      rw [Nat.succ_mul, Nat.add_comm (n * W) W, List.take_add]

theorem fread_short (W n : Nat) (s : Stream) (hW : 0 < W) (h : s.length < n * W) :
    (fread W n s).1.length = s.length / W ∧ (fread W n s).2 = [] ∧
      (fread W n s).1.flatten = s.take (s.length / W * W) := by
  induction n generalizing s with
  | zero => simp at h
  | succ n ih =>
    unfold fread
    rw [if_neg (by omega)]
    by_cases hle : W ≤ s.length
    · rw [if_pos hle]
      have h2 : (s.drop W).length < n * W := by
        rw [List.length_drop, Nat.succ_mul] at *; omega
      obtain ⟨i1, i2, i3⟩ := ih (s.drop W) h2
      have hdiv : s.length / W = (s.length - W) / W + 1 := by
        rw [← Nat.sub_add_cancel hle, Nat.add_div_right _ hW]; simp
      refine ⟨?_, i2, ?_⟩
      · simp only [List.length_cons, i1, List.length_drop, hdiv]
      · simp only [List.flatten_cons, i3, List.length_drop, hdiv]
        rw [Nat.succ_mul, Nat.add_comm _ W, List.take_add]
    · rw [if_neg hle]
      have : s.length / W = 0 := Nat.div_eq_of_lt (by omega)
      simp [this]

theorem store_length (data : List Data) (off : Nat) (items : List Data)
    (h : off + items.length ≤ data.length) : (store data off items).length = data.length := by
  unfold store
  simp only [List.length_append, List.length_take, List.length_drop]
  omega

theorem store_width (W : Nat) (data : List Data) (off : Nat) (items : List Data)
    (hd : width_ok W data) (hi : width_ok W items) : width_ok W (store data off items) := by
  intro d hmem
  unfold store at hmem
  simp only [List.mem_append] at hmem
  rcases hmem with (h | h) | h
  · exact hd d (List.mem_of_mem_take h)
  · exact hi d h
  · exact hd d (List.mem_of_mem_drop h)

/-- What the loop of `process_input_file` does on a file of `T = fin.length / W` whole
records when the chunk starts empty: `T / C` full chunks are spilled and `T % C` is returned. -/
theorem process_loop_empty (W : Nat) (args : arguments) (hW : 0 < W) (hC : 0 < args.chunk_size) :
    ∀ (fuel : Nat) (fin : Stream) (st : Phase1), fin.length < fuel →
      st.data.length = args.chunk_size → width_ok W st.data →
      ∃ st1, process_loop W args fuel fin 0 st =
          some ((fin.length / W) % args.chunk_size, st1) ∧
        st1.nfiles = st.nfiles + fin.length / W / args.chunk_size ∧
        st1.files.map Prod.fst =
          st.files.map Prod.fst ++ List.range' st.nfiles (fin.length / W / args.chunk_size) ∧
        st1.files.map (fun f => f.2.length) =
          st.files.map (fun f => f.2.length) ++
            List.replicate (fin.length / W / args.chunk_size) (args.chunk_size * W) ∧
        st1.data.length = args.chunk_size ∧ width_ok W st1.data := by
  intro fuel
  induction fuel with
  | zero => intro fin st h; omega
  | succ fuel ih =>
    intro fin st hfuel hlen hw
    unfold process_loop
    simp only [Nat.sub_zero]
    by_cases hfull : args.chunk_size * W ≤ fin.length
    · obtain ⟨r1, r2, _⟩ := fread_full W args.chunk_size fin hW hfull
      have hst1len : (store st.data 0 (fread W args.chunk_size fin).1).length =
          args.chunk_size := by
        rw [store_length _ _ _ (by omega), hlen]
      have hst1w : width_ok W (store st.data 0 (fread W args.chunk_size fin).1) :=
        store_width W _ _ _ hw (fread_width W _ _)
      obtain ⟨f1, f2, f3, f4⟩ := shuffle_and_save_facts W args.chunk_size
        { st with data := store st.data 0 (fread W args.chunk_size fin).1 }
        (by simp only [hst1len]; exact Nat.le_refl _) hst1w
      obtain ⟨bytes, f5, f6⟩ := f4 (by omega)
      have hpos : 0 < args.chunk_size * W := Nat.mul_pos hC hW
      have hrest : (fin.drop (args.chunk_size * W)).length < fuel := by
        rw [List.length_drop]; omega
      obtain ⟨st1, e1, e2, e3, e4, e5, e6⟩ := ih (fin.drop (args.chunk_size * W))
        (shuffle_and_save args.chunk_size
          { st with data := store st.data 0 (fread W args.chunk_size fin).1 })
        hrest (by rw [f2, hst1len]) f3
      have hT : fin.length / W =
          (fin.drop (args.chunk_size * W)).length / W + args.chunk_size := by
        rw [List.length_drop]
        have : fin.length = fin.length - args.chunk_size * W + args.chunk_size * W := by omega
        conv_lhs => rw [this]
        rw [Nat.add_mul_div_right _ _ hW]
      have hq : fin.length / W / args.chunk_size =
          (fin.drop (args.chunk_size * W)).length / W / args.chunk_size + 1 := by
        rw [hT, Nat.add_div_right _ hC]
      have hm : fin.length / W % args.chunk_size =
          (fin.drop (args.chunk_size * W)).length / W % args.chunk_size := by
        rw [hT, Nat.add_mod_right]
      refine ⟨st1, ?_, ?_, ?_, ?_, e5, e6⟩
      · rw [r1, r2]
        simp only [if_true, true_and]
        rw [if_pos (by omega), e1, hm]
      · rw [e2, f1, hq]; simp only []; omega
      · rw [e3, f5, f1, hq]
        simp [List.range'_succ]
      · rw [e4, f5, hq]
        simp [List.replicate_succ, f6]
    · have hshort : fin.length < args.chunk_size * W := by omega
      obtain ⟨r1, r2, _⟩ := fread_short W args.chunk_size fin hW hshort
      have hlt : fin.length / W < args.chunk_size := by
        rw [Nat.div_lt_iff_lt_mul hW]; exact hshort
      have hq : fin.length / W / args.chunk_size = 0 := Nat.div_eq_of_lt hlt
      have hm : fin.length / W % args.chunk_size = fin.length / W := Nat.mod_eq_of_lt hlt
      refine ⟨{ st with data := store st.data 0 (fread W args.chunk_size fin).1 }, ?_, ?_, ?_, ?_,
        ?_, ?_⟩
      · rw [r1, hm]
        have hne : ¬ (fin.length / W = args.chunk_size) := by omega
        simp only [hne, if_false]
        rw [if_neg (by omega)]
        by_cases h0 : fin.length / W = 0
        · simp [h0]
        · simp [h0]
      · simp [hq]
      · simp [hq]
      · simp [hq]
      · rw [store_length _ _ _ (by omega), hlen]
      · exact store_width W _ _ _ hw (fread_width W _ _)

theorem ceil_div_eq (T C : Nat) (hC : 0 < C) :
    (T + C - 1) / C = T / C + (if T % C = 0 then 0 else 1) := by
  have h := Nat.div_add_mod T C
  by_cases hr : T % C = 0
  · rw [if_pos hr]
    have e : T + C - 1 = (C - 1) + C * (T / C) := by omega
    rw [e, Nat.add_mul_div_left _ _ hC, Nat.div_eq_of_lt (by omega)]; omega
  · rw [if_neg hr]
    have hlt := Nat.mod_lt T hC
    have e : T + C - 1 = (T % C - 1) + C * (T / C + 1) := by
      rw [Nat.mul_add]; omega
    rw [e, Nat.add_mul_div_left _ _ hC, Nat.div_eq_of_lt (by omega)]; omega

theorem malloc_data_length (W n : Nat) : (malloc_data W n).length = n := by
  simp [malloc_data]

theorem malloc_data_width (W n : Nat) : width_ok W (malloc_data W n) := by
  intro d hd
  simp only [malloc_data, List.mem_replicate] at hd
  rw [hd.2]; simp

/-- Phase 1 on a single input file, as counts: see `chunking_boundary`. -/
theorem read_single_input (W : Nat) (args : arguments) (fin : Stream) (seed : Nat)
    (hW : 0 < W) (hC : 1 ≤ args.chunk_size) :
    ∃ st, read_all_input_files W args { directory := none, input := some fin } seed =
        some (((skip_header args fin).length / W) % args.chunk_size, st) ∧
      st.nfiles = ((skip_header args fin).length / W + args.chunk_size - 1) / args.chunk_size ∧
      st.files.map Prod.fst = List.range st.nfiles ∧
      st.files.map (fun f => f.2.length) =
        List.replicate ((skip_header args fin).length / W / args.chunk_size)
            (args.chunk_size * W) ++
          (if ((skip_header args fin).length / W) % args.chunk_size = 0 then []
           else [((skip_header args fin).length / W) % args.chunk_size * W]) := by
  obtain ⟨st1, e1, e2, e3, e4, e5, e6⟩ := process_loop_empty W args hW hC
    ((skip_header args fin).length + 1) (skip_header args fin)
    { seed := seed, data := malloc_data W args.chunk_size, nfiles := 0, files := [] }
    (Nat.lt_succ_self _) (malloc_data_length _ _) (malloc_data_width _ _)
  simp only [List.map_nil, List.nil_append, Nat.zero_add] at e2 e3 e4
  have hlt := Nat.mod_lt ((skip_header args fin).length / W) hC
  unfold read_all_input_files process_input_file
  simp only [e1]
  rw [ceil_div_eq _ _ hC]
  by_cases hr : ((skip_header args fin).length / W) % args.chunk_size = 0
  · refine ⟨st1, ?_, ?_, ?_, ?_⟩
    · simp [hr]
    · simp [hr, e2]
    · rw [e3, e2, List.range_eq_range']
    · simp [hr, e4]
  · obtain ⟨f1, f2, f3, f4⟩ := shuffle_and_save_facts W
      (((skip_header args fin).length / W) % args.chunk_size) st1 (by omega) e6
    obtain ⟨bytes, f5, f6⟩ := f4 hr
    refine ⟨shuffle_and_save (((skip_header args fin).length / W) % args.chunk_size) st1,
      ?_, ?_, ?_, ?_⟩
    · simp [hr]
    · simp [hr, f1, e2]
    · rw [f5, f1, e2, List.map_append, e3, List.range_succ]; simp [List.range_eq_range']
    · rw [f5, List.map_append, e4]; simp [hr, f6]

/-- The scan selects `i` exactly when the counts before `i` sum to at most the draw and the
counts up to and including `i` sum to more than the draw. -/
theorem scan_eq_some_iff (rs : List Nat) (p k i : Nat) :
    scan rs p k = some i ↔
      k ≤ i ∧ i - k < rs.length ∧ (rs.take (i - k)).sum ≤ p ∧ p < (rs.take (i - k + 1)).sum := by
  induction rs generalizing p k with
  | nil => simp [scan]
  | cons r rs ih =>
    unfold scan
    by_cases hp : p ≥ r
    · rw [if_pos hp, ih]
      constructor
      · rintro ⟨h1, h2, h3, h4⟩
        have e : i - k = (i - (k + 1)) + 1 := by omega
        refine ⟨by omega, by simp only [List.length_cons]; omega, ?_, ?_⟩
        · rw [e, List.take_succ_cons, List.sum_cons]; omega
        · rw [e, List.take_succ_cons, List.sum_cons]; omega
      · rintro ⟨h1, h2, h3, h4⟩
        have hk : k ≠ i := by
          intro hki; subst hki
          simp at h4; omega
        have e : i - k = (i - (k + 1)) + 1 := by omega
        rw [e, List.take_succ_cons, List.sum_cons] at h3
        rw [e, List.take_succ_cons, List.sum_cons] at h4
        simp only [List.length_cons] at h2
        exact ⟨by omega, by omega, by omega, by omega⟩
    · rw [if_neg hp]
      constructor
      · intro h
        have hki : k = i := by simpa using h
        subst hki
        simp; omega
      · rintro ⟨h1, h2, h3, h4⟩
        by_cases hki : k = i
        · rw [hki]
        · exfalso
          have e : i - k = (i - (k + 1)) + 1 := by omega
          rw [e, List.take_succ_cons, List.sum_cons] at h3
          omega

theorem filter_range_interval (a b n : Nat) (hab : a ≤ b) :
    ((List.range n).filter (fun p => decide (a ≤ p ∧ p < b))).length = min b n - min a n := by
  induction n with
  | zero => simp
  | succ n ih =>
    rw [List.range_succ, List.filter_append, List.length_append, ih]
    by_cases h : a ≤ n ∧ n < b
    · simp [h]; omega
    · simp [h]; omega

theorem sum_take_le_sum (l : List Nat) (n : Nat) : (l.take n).sum ≤ l.sum := by
  conv_rhs => rw [← List.take_append_drop n l]
  rw [List.sum_append]; omega

theorem sum_take_succ_eq (l : List Nat) (i : Nat) (h : i < l.length) :
    (l.take (i + 1)).sum = (l.take i).sum + l[i] := by
  rw [List.take_succ, List.sum_append]
  simp [List.getElem?_eq_getElem h]

theorem scan_isSome_of_lt (rs : List Nat) (p k : Nat) (h : p < rs.sum) :
    ∃ i, scan rs p k = some i := by
  induction rs generalizing p k with
  | nil => simp at h
  | cons r rs ih =>
    unfold scan
    by_cases hp : p ≥ r
    · rw [if_pos hp]
      exact ih (p - r) (k + 1) (by rw [List.sum_cons] at h; omega)
    · rw [if_neg hp]; exact ⟨k, rfl⟩

theorem sum_set_add (l : List Nat) (i v : Nat) (h : i < l.length) :
    (l.set i v).sum + l[i] = l.sum + v := by
  induction l generalizing i with
  | nil => simp at h
  | cons a l ih =>
    cases i with
    | zero => simp; omega
    | succ i =>
      simp only [List.length_cons, Nat.add_lt_add_iff_right] at h
      have := ih i h
      simp only [List.set_cons_succ, List.sum_cons, List.getElem_cons_succ]
      omega

/-- One call of `pop_and_save` when `total_remaining` is the positive sum of the counts and the
three arrays have one length: what is selected and how the state changes. -/
theorem pop_and_save_step (W : Nat) (junk : Data) (fout : Stream) (st : Phase2)
    (total_remaining : Nat) (htot : total_remaining = st.remaining.sum)
    (hpos : 0 < total_remaining) (hp : st.partials.length = st.remaining.length)
    (hc : st.closes.length = st.remaining.length) :
    ∃ (idx : Nat) (hidx : idx < st.remaining.length),
      scan st.remaining ((rand64 st.seed).1 % total_remaining) 0 = some idx ∧
      1 ≤ st.remaining[idx] ∧
      (st.remaining.take idx).sum ≤ (rand64 st.seed).1 % total_remaining ∧
      (rand64 st.seed).1 % total_remaining < (st.remaining.take (idx + 1)).sum ∧
      pop_and_save W junk fout st total_remaining =
        some (fout ++ (fread W 1 (st.partials.get ⟨idx, by omega⟩)).1.headD junk,
          { seed := (rand64 st.seed).2
            partials := st.partials.set idx (fread W 1 (st.partials.get ⟨idx, by omega⟩)).2
            remaining := st.remaining.set idx (st.remaining[idx] - 1)
            closes :=
              if st.remaining[idx] - 1 = 0 then
                st.closes.set idx (st.closes.get ⟨idx, by omega⟩ + 1)
              else st.closes
            errors :=
              if (fread W 1 (st.partials.get ⟨idx, by omega⟩)).1.length ≠ 1 then st.errors + 1
              else st.errors }) := by
  have hlt : (rand64 st.seed).1 % total_remaining < st.remaining.sum := by
    rw [← htot]; exact Nat.mod_lt _ hpos
  obtain ⟨idx, hscan⟩ := scan_isSome_of_lt st.remaining _ 0 hlt
  have hch := (scan_eq_some_iff st.remaining _ 0 idx).mp hscan
  simp only [Nat.sub_zero, Nat.zero_le, true_and] at hch
  obtain ⟨hidx, h3, h4⟩ := hch
  have hs := sum_take_succ_eq st.remaining idx hidx
  refine ⟨idx, hidx, hscan, by omega, h3, h4, ?_⟩
  unfold pop_and_save
  rw [if_neg (by omega)]
  simp only [hscan]
  rw [List.getElem?_eq_getElem (show idx < st.partials.length by omega),
    List.getElem?_eq_getElem hidx,
    List.getElem?_eq_getElem (show idx < st.closes.length by omega)]
  rfl

theorem sum_take_mono (l : List Nat) (m n : Nat) (h : m ≤ n) :
    (l.take m).sum ≤ (l.take n).sum := by
  have e : l.take m = (l.take n).take m := by
    rw [List.take_take, Nat.min_eq_left h]
  rw [e]
  exact sum_take_le_sum _ _

theorem getD_set_self {α : Type} (l : List α) (i : Nat) (v d : α) (h : i < l.length) :
    (l.set i v).getD i d = v := by
  simp [List.getD_eq_getElem?_getD, List.getElem?_set, h]

theorem getD_set_ne {α : Type} (l : List α) (i j : Nat) (v d : α) (h : i ≠ j) :
    (l.set i v).getD j d = l.getD j d := by
  simp [List.getD_eq_getElem?_getD, List.getElem?_set, h]

theorem fread_one (W : Nat) (p : Stream) (hW : 0 < W) (h : W ≤ p.length) :
    fread W 1 p = ([p.take W], p.drop W) := by
  unfold fread
  rw [if_neg (by omega), if_pos h]
  simp [fread]

/-- One draw keeps the Phase 2 bookkeeping: a full record is appended to the output. -/
theorem pop_and_save_inv (W : Nat) (init : List Nat) (junk : Data) (fout : Stream)
    (st : Phase2) (total saved : Nat) (hW : 0 < W) (hinv : merge_inv W init total saved st)
    (hlt : saved < total) :
    ∃ d st1, pop_and_save W junk fout st (total - saved) = some (fout ++ d, st1) ∧
      d.length = W ∧ merge_inv W init total (saved + 1) st1 := by
  obtain ⟨hp, hc, hsum, hbytes, hcl, herr, hilen, hinit⟩ := hinv
  obtain ⟨idx, hidx, _, h1, _, _, hres⟩ :=
    pop_and_save_step W junk fout st (total - saved) (by omega) (by omega) hp hc
  have hpi : idx < st.partials.length := by omega
  have hci : idx < st.closes.length := by omega
  have hb := hbytes idx hidx
  rw [List.getD_eq_getElem _ _ hpi, List.getD_eq_getElem _ _ hidx] at hb
  have hcc := hcl idx hidx
  rw [List.getD_eq_getElem _ _ hci, List.getD_eq_getElem _ _ hidx] at hcc
  have hii0 := hinit idx hidx
  rw [List.getD_eq_getElem _ _ hidx] at hii0
  have hWle : W ≤ (st.partials[idx]).length := by
    rw [hb]; exact Nat.le_mul_of_pos_left W h1
  have hfr := fread_one W st.partials[idx] hW hWle
  have hget : st.partials.get ⟨idx, by omega⟩ = st.partials[idx] := rfl
  have hcget : st.closes.get ⟨idx, by omega⟩ = st.closes[idx] := rfl
  rw [hget, hcget, hfr] at hres
  simp only [List.headD_cons, List.length_singleton, ne_eq, not_true_eq_false, if_false]
    at hres
  refine ⟨_, _, hres, ?_, ?_⟩
  · rw [List.length_take]; omega
  · have hsum2 := sum_set_add st.remaining idx (st.remaining[idx] - 1) hidx
    refine ⟨by simp [hp], ?_, ?_, ?_, ?_, herr, by simp [hilen], ?_⟩
    · simp only []; split <;> simp [hc]
    · simp only []; omega
    · intro i hi
      simp only [List.length_set] at hi
      by_cases hii : idx = i
      · subst hii
        rw [getD_set_self _ _ _ _ hpi, getD_set_self _ _ _ _ hidx, List.length_drop, hb,
          Nat.sub_mul]
        simp
      · rw [getD_set_ne _ _ _ _ _ hii, getD_set_ne _ _ _ _ _ hii]
        exact hbytes i hi
    · intro i hi
      simp only [List.length_set] at hi
      have hc0 : st.closes[idx] = 0 := by rw [hcc, if_neg (by omega)]
      by_cases hii : idx = i
      · subst hii
        rw [getD_set_self _ _ _ _ hidx]
        by_cases hz : st.remaining[idx] - 1 = 0
        · have hpos : 0 < init.getD idx 0 := by omega
          simp only [hz, if_true, hpos, and_self]
          rw [getD_set_self _ _ _ _ hci, hc0]
        · simp only [hz, if_false, false_and]
          rw [List.getD_eq_getElem _ _ hci, hc0]
      · rw [getD_set_ne _ _ _ _ _ hii]
        have := hcl i hi
        split
        · rw [getD_set_ne _ _ _ _ _ hii]; exact this
        · exact this
    · intro i hi
      simp only [List.length_set] at hi
      by_cases hii : idx = i
      · subst hii
        rw [getD_set_self _ _ _ _ hidx]; omega
      · rw [getD_set_ne _ _ _ _ _ hii]
        exact hinit i hi

/-- The inner loop under the Phase 2 bookkeeping: it appends `min n (total - saved)` full
records to the output file. -/
theorem fill_output_inv (W : Nat) (init : List Nat) (junk : Data) (total : Nat) (hW : 0 < W) :
    ∀ (n : Nat) (fout : Stream) (st : Phase2) (saved : Nat), merge_inv W init total saved st →
      ∃ body st1, fill_output W junk total n fout st saved =
          some (fout ++ body, st1, saved + min n (total - saved)) ∧
        body.length = min n (total - saved) * W ∧
        merge_inv W init total (saved + min n (total - saved)) st1 := by
  intro n
  induction n with
  | zero =>
    intro fout st saved hinv
    exact ⟨[], st, by simp [fill_output], by simp, by simpa using hinv⟩
  | succ n ih =>
    intro fout st saved hinv
    have hle : saved ≤ total := by have := hinv.2.2.1; omega
    unfold fill_output
    by_cases hne : total ≠ saved
    · rw [if_pos hne]
      obtain ⟨d, st1, e1, e2, e3⟩ :=
        pop_and_save_inv W init junk fout st total saved hW hinv (by omega)
      obtain ⟨body, st2, g1, g2, g3⟩ := ih (fout ++ d) st1 (saved + 1) e3
      have hmin : saved + 1 + min n (total - (saved + 1)) = saved + min (n + 1) (total - saved) := by
        omega
      have hmin2 : min (n + 1) (total - saved) = 1 + min n (total - (saved + 1)) := by omega
      refine ⟨d ++ body, st2, ?_, ?_, ?_⟩
      · simp only [e1, g1, hmin, List.append_assoc]
      · rw [List.length_append, e2, g2, hmin2, Nat.add_mul]; omega
      · rw [← hmin]; exact g3
    · have heq : total = saved := by omega
      rw [if_neg hne]
      have hz : min (n + 1) (total - saved) = 0 := by omega
      exact ⟨[], st, by simp [hz], by simp [hz], by rw [hz]; simpa using hinv⟩

theorem header_eq (args : arguments) :
    (if args.write_header ≠ 0 then List.replicate args.write_header 0 else ([] : Stream)) =
      List.replicate args.write_header 0 := by
  by_cases h : args.write_header = 0
  · simp [h]
  · simp [h]

/-- The outer loop under the Phase 2 bookkeeping: each of the `n` output files is the zero
header followed by up to `entries_per` full records, as long as records are left. -/
theorem output_loop_inv (W : Nat) (init : List Nat) (junk : Data) (args : arguments)
    (total entries_per : Nat) (hW : 0 < W) :
    ∀ (n : Nat) (st : Phase2) (saved : Nat) (outs : List Stream), merge_inv W init total saved st →
      ∃ (bodies : List Stream) (st1 : Phase2), output_loop W junk args total entries_per n st saved outs =
          some (outs ++ bodies.map (fun b => List.replicate args.write_header 0 ++ b), st1,
            min total (saved + n * entries_per)) ∧
        bodies.map List.length =
          (List.range n).map
            (fun j => min entries_per (total - (saved + j * entries_per)) * W) ∧
        merge_inv W init total (min total (saved + n * entries_per)) st1 := by
  intro n
  induction n with
  | zero =>
    intro st saved outs hinv
    have hle : saved ≤ total := by have := hinv.2.2.1; omega
    have hz : min total (saved + 0 * entries_per) = saved := by
      rw [Nat.zero_mul]; omega
    refine ⟨[], st, by simp [output_loop, hle], by simp, ?_⟩
    rw [hz]; exact hinv
  | succ n ih =>
    intro st saved outs hinv
    have hle : saved ≤ total := by have := hinv.2.2.1; omega
    unfold output_loop
    simp only [header_eq]
    obtain ⟨body, st1, e1, e2, e3⟩ := fill_output_inv W init junk total hW entries_per
      (List.replicate args.write_header 0) st saved hinv
    obtain ⟨bodies, st2, g1, g2, g3⟩ := ih st1 (saved + min entries_per (total - saved))
      (outs ++ [List.replicate args.write_header 0 ++ body]) e3
    have hsaved : min total (saved + min entries_per (total - saved) + n * entries_per) =
        min total (saved + (n + 1) * entries_per) := by
      rw [Nat.succ_mul]; omega
    refine ⟨body :: bodies, st2, ?_, ?_, ?_⟩
    · simp only [e1, g1, hsaved, List.map_cons, List.append_assoc, List.singleton_append]
    · rw [List.map_cons, g2, List.range_succ_eq_map, List.map_cons, List.map_map, e2]
      simp only [Nat.zero_mul, Nat.add_zero]
      congr 1
      apply List.map_congr_left
      intro j _
      simp only [Function.comp, Nat.succ_eq_add_one]
      congr 1
      rw [Nat.succ_mul]
      omega
    · rw [← hsaved]; exact g3

theorem merge_inv_init (W : Nat) (st : Phase2)
    (hp : st.partials.map List.length = st.remaining.map (fun r => r * W))
    (hcl : st.closes = List.replicate st.remaining.length 0) (herr : st.errors = 0) :
    merge_inv W st.remaining st.remaining.sum 0 st := by
  have hlen : st.partials.length = st.remaining.length := by
    have := congrArg List.length hp
    simpa using this
  refine ⟨hlen, by rw [hcl]; simp, by simp, ?_, ?_, herr, rfl, fun i _ => Nat.le_refl _⟩
  · intro i hi
    have h1 : (st.partials.map List.length)[i]? = (st.remaining.map (fun r => r * W))[i]? := by
      rw [hp]
    rw [List.getElem?_map, List.getElem?_map, List.getElem?_eq_getElem (by omega),
      List.getElem?_eq_getElem hi] at h1
    rw [List.getD_eq_getElem _ _ (by omega), List.getD_eq_getElem _ _ hi]
    simpa using h1
  · intro i hi
    rw [hcl, if_neg (by omega)]
    simp [List.getD_eq_getElem?_getD, List.getElem?_replicate, hi]

theorem sum_min_range (total ep saved n : Nat) (h : saved ≤ total) :
    ((List.range n).map (fun j => min ep (total - (saved + j * ep)))).sum =
      min total (saved + n * ep) - saved := by
  induction n with
  | zero => simp
  | succ n ih =>
    rw [List.range_succ, List.map_append, List.sum_append, ih, Nat.succ_mul]
    simp only [List.map_cons, List.map_nil, List.sum_cons, List.sum_nil, Nat.add_zero]
    omega

theorem sum_shape (C n last : Nat) :
    (List.replicate (n - 1) C ++ [last]).sum = last + C * (n - 1) := by
  rw [List.sum_append]
  simp [Nat.mul_comm]
  omega

/-- Phase 2 on counts of the shape Phase 1 leaves (all `chunk_size` but the last) with
partial files of exactly those sizes: `cnt_output_files` output files, each the zero header
followed by up to `entries_per` full records. -/
theorem output_from_partials_spec (W : Nat) (junk : Data) (args : arguments) (st : Phase2)
    (nfiles last : Nat) (hW : 0 < W) (hn : 0 < nfiles)
    (hshape : st.remaining = List.replicate (nfiles - 1) args.chunk_size ++ [last])
    (hp : st.partials.map List.length = st.remaining.map (fun r => r * W))
    (hcl : st.closes = List.replicate st.remaining.length 0) (herr : st.errors = 0)
    (hsize : last + args.chunk_size * (nfiles - 1) < 2 ^ 64)
    (total entries_per cnt : Nat) (htotal : total = last + args.chunk_size * (nfiles - 1))
    (hper : entries_per = if args.per_file = 0 then total else args.per_file)
    (hcnt : cnt = (cnt_output_files args total).toNat) :
    ∃ (bodies : List Stream) (st1 : Phase2),
      output_from_partials W junk args st nfiles =
        some (bodies.map (fun b => List.replicate args.write_header 0 ++ b), st1,
          min total (cnt * entries_per)) ∧
      bodies.map List.length =
        (List.range cnt).map (fun j => min entries_per (total - j * entries_per) * W) ∧
      merge_inv W st.remaining total (min total (cnt * entries_per)) st1 := by
  have hsum : st.remaining.sum = total := by rw [hshape, sum_shape, htotal]
  have hinv := merge_inv_init W st hp hcl herr
  rw [hsum] at hinv
  obtain ⟨bodies, st1, e1, e2, e3⟩ :=
    output_loop_inv W st.remaining junk args total entries_per hW cnt st 0 [] hinv
  simp only [Nat.zero_add, List.nil_append] at e1 e2 e3
  refine ⟨bodies, st1, ?_, e2, e3⟩
  unfold output_from_partials
  rw [if_neg (by omega)]
  have hlast : st.remaining[nfiles - 1]? = some last := by
    rw [hshape, List.getElem?_append_right (by simp)]
    simp
  simp only [hlast]
  rw [Nat.mod_eq_of_lt hsize, ← htotal, ← hper, ← hcnt]
  exact e1

theorem sum_map_mul (l : List Nat) (W : Nat) : (l.map (fun x => x * W)).sum = l.sum * W := by
  induction l with
  | nil => simp
  | cons a l ih => simp [ih, Nat.add_mul]

/-- The file count `1 + (total - 1) / per_file` computed in 64 bits, for `total >= 1`. -/
theorem cnt_output_files_pos (total pf : Nat) (hpf : 0 < pf) (ht : 1 ≤ total)
    (hsize : total < 2 ^ 64) :
    (1 + ((total + 2 ^ 64 - 1) % 2 ^ 64) / pf) % 2 ^ 64 = 1 + (total - 1) / pf ∧
      total ≤ (1 + (total - 1) / pf) * pf ∧ (total - 1) / pf * pf < total := by
  have e1 : (total + 2 ^ 64 - 1) % 2 ^ 64 = total - 1 := by
    have : total + 2 ^ 64 - 1 = (total - 1) + 2 ^ 64 := by omega
    rw [this, Nat.add_mod_right, Nat.mod_eq_of_lt (by omega)]
  have hdiv : (total - 1) / pf ≤ total - 1 := Nat.div_le_self _ _
  have h1 := Nat.div_add_mod (total - 1) pf
  have h2 := Nat.mod_lt (total - 1) hpf
  rw [e1, Nat.mod_eq_of_lt (by omega)]
  refine ⟨rfl, ?_, ?_⟩
  · rw [Nat.add_mul, Nat.mul_comm ((total - 1) / pf) pf]; omega
  · rw [Nat.mul_comm ((total - 1) / pf) pf]; omega

/-- With `per_file = 0` the file count is 1. -/
theorem cnt_output_files_single (args : arguments) (total : Nat) (hpf : args.per_file = 0) :
    (cnt_output_files args total).toNat = 1 := by
  unfold cnt_output_files
  rw [if_pos hpf]
  rfl

/-- The file count of the code is `1 + (total - 1) / per_file` when there is at least one
record and that number is below `2^31`, so that the conversion to `int` keeps it. -/
theorem cnt_output_files_fit (args : arguments) (total : Nat) (hpf : 0 < args.per_file)
    (ht : 1 ≤ total) (hsize : total < 2 ^ 64)
    (hfit : 1 + (total - 1) / args.per_file < 2 ^ 31) :
    (cnt_output_files args total).toNat = 1 + (total - 1) / args.per_file := by
  obtain ⟨c1, -, -⟩ := cnt_output_files_pos total args.per_file hpf ht hsize
  unfold cnt_output_files
  rw [if_neg (by omega), c1, to_int_of_lt _ hfit]
  rfl

theorem all_zero_of_sum_zero (l : List Nat) (h : l.sum = 0) : l = List.replicate l.length 0 := by
  induction l with
  | nil => rfl
  | cons a l ih =>
    rw [List.sum_cons] at h
    have ha : a = 0 := by omega
    have hl : l.sum = 0 := by omega
    rw [List.length_cons, List.replicate_succ, ← ih hl, ha]

/-- What the final bookkeeping says once every record has been written: all counts are zero,
every partial file is read to its end, and a partial file has been closed once if it had
records. -/
theorem merge_inv_final (W : Nat) (init : List Nat) (total : Nat) (st : Phase2)
    (hinv : merge_inv W init total total st) :
    st.remaining = List.replicate init.length 0 ∧
      st.closes = init.map (fun r => if 0 < r then 1 else 0) ∧
      st.partials = List.replicate init.length [] ∧ st.errors = 0 := by
  obtain ⟨hp, hc, hsum, hbytes, hcl, herr, hlen, _⟩ := hinv
  have hz : st.remaining = List.replicate st.remaining.length 0 :=
    all_zero_of_sum_zero _ (by omega)
  have hget : ∀ i, st.remaining.getD i 0 = 0 := by
    intro i
    rw [hz]
    simp only [List.getD_eq_getElem?_getD, List.getElem?_replicate]
    split <;> rfl
  refine ⟨by rw [hlen]; exact hz, ?_, ?_, herr⟩
  · apply List.ext_getElem
    · simp [hc, hlen]
    · intro i h1 h2
      have hi : i < st.remaining.length := by omega
      have := hcl i hi
      rw [hget i, List.getD_eq_getElem _ _ h1] at this
      rw [this, List.getElem_map]
      have hii : i < init.length := by omega
      rw [List.getD_eq_getElem _ _ hii]
      simp
  · apply List.ext_getElem
    · simp [hp, hlen]
    · intro i h1 h2
      have hi : i < st.remaining.length := by omega
      have := hbytes i hi
      rw [hget i, List.getD_eq_getElem _ _ h1, Nat.zero_mul] at this
      rw [List.getElem_replicate]
      exact List.length_eq_zero.mp this

/-- Phase 2 when the output files have room for every record (`total <= cnt * entries_per`):
all `total` records are written, and the final state is the drained one. -/
theorem output_from_partials_complete (W : Nat) (junk : Data) (args : arguments) (st : Phase2)
    (nfiles last : Nat) (hW : 0 < W) (hn : 0 < nfiles)
    (hshape : st.remaining = List.replicate (nfiles - 1) args.chunk_size ++ [last])
    (hp : st.partials.map List.length = st.remaining.map (fun r => r * W))
    (hcl : st.closes = List.replicate st.remaining.length 0) (herr : st.errors = 0)
    (hsize : st.remaining.sum < 2 ^ 64)
    (entries_per cnt : Nat)
    (hper : entries_per = if args.per_file = 0 then st.remaining.sum else args.per_file)
    (hcnt : cnt = (cnt_output_files args st.remaining.sum).toNat)
    (hcover : st.remaining.sum ≤ cnt * entries_per) :
    ∃ (bodies : List Stream) (st1 : Phase2),
      output_from_partials W junk args st nfiles =
        some (bodies.map (fun b => List.replicate args.write_header 0 ++ b), st1,
          st.remaining.sum) ∧
      bodies.map List.length =
        (List.range cnt).map
          (fun j => min entries_per (st.remaining.sum - j * entries_per) * W) ∧
      (bodies.map List.length).sum = st.remaining.sum * W ∧
      st1.remaining = List.replicate nfiles 0 ∧
      st1.closes = st.remaining.map (fun r => if 0 < r then 1 else 0) ∧
      st1.partials = List.replicate nfiles [] ∧ st1.errors = 0 := by
  have hsum : st.remaining.sum = last + args.chunk_size * (nfiles - 1) := by
    rw [hshape, sum_shape]
  have hlen : st.remaining.length = nfiles := by
    rw [hshape]; simp; omega
  obtain ⟨bodies, st1, e1, e2, e3⟩ := output_from_partials_spec W junk args st nfiles last hW hn
    hshape hp hcl herr (by omega) st.remaining.sum entries_per cnt hsum hper hcnt
  have hmin : min st.remaining.sum (cnt * entries_per) = st.remaining.sum := by omega
  rw [hmin] at e1 e3
  obtain ⟨f1, f2, f3, f4⟩ := merge_inv_final W st.remaining st.remaining.sum st1 e3
  refine ⟨bodies, st1, e1, e2, ?_, by rw [f1, hlen], f2, by rw [f3, hlen], f4⟩
  rw [e2]
  have := sum_min_range st.remaining.sum entries_per 0 cnt (Nat.zero_le _)
  simp only [Nat.zero_add, Nat.sub_zero] at this
  rw [show (fun j => min entries_per (st.remaining.sum - j * entries_per) * W) =
      (fun x => x * W) ∘ (fun j => min entries_per (st.remaining.sum - j * entries_per)) from rfl,
    ← List.map_map, sum_map_mul, this, hmin]

/-- The record counts of the output files when `per_file > 0` and at least one record
exists: `per_file` for all files but the last, the rest for the last. -/
theorem split_counts (T pf W : Nat) (hpf : 0 < pf) (hT : 1 ≤ T) :
    (List.range (1 + (T - 1) / pf)).map (fun j => min pf (T - j * pf) * W) =
      List.replicate ((T - 1) / pf) (pf * W) ++ [(T - (T - 1) / pf * pf) * W] := by
  have h1 := Nat.div_add_mod (T - 1) pf
  have h2 := Nat.mod_lt (T - 1) hpf
  rw [Nat.mul_comm pf] at h1
  rw [Nat.add_comm 1, List.range_succ, List.map_append]
  congr 1
  · rw [List.eq_replicate_iff]
    refine ⟨by simp, ?_⟩
    intro b hb
    obtain ⟨j, hj, rfl⟩ := List.mem_map.mp hb
    have hj2 : j + 1 ≤ (T - 1) / pf := by simpa [List.mem_range] using hj
    have hm := Nat.mul_le_mul_right pf hj2
    rw [Nat.add_mul, Nat.one_mul] at hm
    congr 1
    omega
  · simp only [List.map_cons, List.map_nil]
    congr 2
    omega

/-- For at least one record, the file count of the code is `ceil(T / per_file)`. -/
theorem one_add_pred_div (T pf : Nat) (hpf : 0 < pf) (hT : 1 ≤ T) :
    1 + (T - 1) / pf = (T + pf - 1) / pf := by
  have e : T + pf - 1 = (T - 1) + pf := by omega
  rw [e, Nat.add_div_right _ hpf]; omega

/-- The part of C8 that holds: with `per_file > 0` and a total of `T >= 1` records in fewer
than `2^31` output files, Phase 2 returns with `ceil(T / per_file)` output files, each the
header followed by `per_file` records, except the last, which takes the records that are
left. -/
theorem multi_output_split_pos (W : Nat) (junk : Data) (args : arguments) (st : Phase2)
    (nfiles last : Nat) (hW : 0 < W) (hn : 0 < nfiles)
    (hshape : st.remaining = List.replicate (nfiles - 1) args.chunk_size ++ [last])
    (hp : st.partials.map List.length = st.remaining.map (fun r => r * W))
    (hcl : st.closes = List.replicate st.remaining.length 0) (herr : st.errors = 0)
    (hsize : st.remaining.sum < 2 ^ 64) (hpf : 0 < args.per_file)
    (hT : 1 ≤ st.remaining.sum)
    (hfit : 1 + (st.remaining.sum - 1) / args.per_file < 2 ^ 31) :
    ∃ (bodies : List Stream) (st1 : Phase2),
      output_from_partials W junk args st nfiles =
        some (bodies.map (fun b => List.replicate args.write_header 0 ++ b), st1,
          st.remaining.sum) ∧
      bodies.length = (st.remaining.sum + args.per_file - 1) / args.per_file ∧
      bodies.map List.length =
        List.replicate ((st.remaining.sum - 1) / args.per_file) (args.per_file * W) ++
          [(st.remaining.sum - (st.remaining.sum - 1) / args.per_file * args.per_file) * W] ∧
      1 ≤ st.remaining.sum - (st.remaining.sum - 1) / args.per_file * args.per_file ∧
      st.remaining.sum - (st.remaining.sum - 1) / args.per_file * args.per_file ≤
        args.per_file := by
  obtain ⟨c1, c2, c3⟩ := cnt_output_files_pos st.remaining.sum args.per_file hpf hT hsize
  have hpf0 : ¬ args.per_file = 0 := by omega
  obtain ⟨bodies, st1, e1, e2, _⟩ := output_from_partials_complete W junk args st nfiles last
    hW hn hshape hp hcl herr hsize args.per_file (1 + (st.remaining.sum - 1) / args.per_file)
    (by rw [if_neg hpf0]) (cnt_output_files_fit args _ hpf hT hsize hfit).symm c2
  rw [split_counts _ _ _ hpf hT] at e2
  refine ⟨bodies, st1, e1, ?_, e2, by omega, ?_⟩
  · have := congrArg List.length e2
    rw [← one_add_pred_div _ _ hpf hT]
    simpa [Nat.add_comm] using this
  · rw [Nat.add_mul, Nat.one_mul] at c2; omega

/-- What the loop of `process_input_file` does on a file of `k = fin.length / W` whole
records when `L < C` records are carried over in the chunk: if the file fills the chunk
(`k >= C - L`) it spills `(L + k) / C` chunks and returns `(L + k) % C`; otherwise it spills
nothing and returns `k`, the carried count `L` being dropped. -/
theorem process_loop_carry (W : Nat) (args : arguments) (hW : 0 < W)
    (fuel : Nat) (fin : Stream) (L : Nat) (st : Phase1) (hL : L < args.chunk_size)
    (hfuel : fin.length < fuel) (hlen : st.data.length = args.chunk_size)
    (hw : width_ok W st.data) :
    ∃ st1, process_loop W args fuel fin L st =
        some (if fin.length / W < args.chunk_size - L then fin.length / W
          else (L + fin.length / W) % args.chunk_size, st1) ∧
      st1.nfiles = st.nfiles +
        (if fin.length / W < args.chunk_size - L then 0
          else (L + fin.length / W) / args.chunk_size) ∧
      st1.data.length = args.chunk_size ∧ width_ok W st1.data := by
  have hC : 0 < args.chunk_size := by omega
  cases fuel with
  | zero => omega
  | succ fuel =>
    unfold process_loop
    dsimp only
    by_cases hfull : (args.chunk_size - L) * W ≤ fin.length
    · obtain ⟨r1, r2, -⟩ := fread_full W (args.chunk_size - L) fin hW hfull
      have hk : ¬ fin.length / W < args.chunk_size - L := by
        rw [Nat.not_lt, Nat.le_div_iff_mul_le hW]; exact hfull
      have hst1len : (store st.data L (fread W (args.chunk_size - L) fin).1).length =
          args.chunk_size := by
        rw [store_length _ _ _ (by omega), hlen]
      have hst1w : width_ok W (store st.data L (fread W (args.chunk_size - L) fin).1) :=
        store_width W _ _ _ hw (fread_width W _ _)
      obtain ⟨f1, f2, f3, -⟩ := shuffle_and_save_facts W args.chunk_size
        { st with data := store st.data L (fread W (args.chunk_size - L) fin).1 }
        (by simp only [hst1len]; exact Nat.le_refl _) hst1w
      have hpos : 0 < (args.chunk_size - L) * W := Nat.mul_pos (by omega) hW
      obtain ⟨st1, e1, e2, -, -, e5, e6⟩ := process_loop_empty W args hW hC fuel
        (fin.drop ((args.chunk_size - L) * W))
        (shuffle_and_save args.chunk_size
          { st with data := store st.data L (fread W (args.chunk_size - L) fin).1 })
        (by rw [List.length_drop]; omega) (by rw [f2, hst1len]) f3
      have hT : fin.length / W =
          (fin.drop ((args.chunk_size - L) * W)).length / W + (args.chunk_size - L) := by
        rw [List.length_drop]
        have : fin.length =
            fin.length - (args.chunk_size - L) * W + (args.chunk_size - L) * W := by omega
        conv_lhs => rw [this]
        rw [Nat.add_mul_div_right _ _ hW]
      have hLk : L + fin.length / W =
          (fin.drop ((args.chunk_size - L) * W)).length / W + args.chunk_size := by omega
      refine ⟨st1, ?_, ?_, e5, e6⟩
      · rw [r1, r2]
        simp only [if_true, true_and]
        rw [if_pos (by omega), e1, if_neg hk, hLk, Nat.add_mod_right]
      · rw [e2, f1, if_neg hk, hLk, Nat.add_div_right _ hC]; simp only []; omega
    · have hshort : fin.length < (args.chunk_size - L) * W := by omega
      obtain ⟨r1, -, -⟩ := fread_short W (args.chunk_size - L) fin hW hshort
      have hk : fin.length / W < args.chunk_size - L := by
        rw [Nat.div_lt_iff_lt_mul hW]; exact hshort
      refine ⟨{ st with data := store st.data L (fread W (args.chunk_size - L) fin).1 },
        ?_, ?_, ?_, ?_⟩
      · rw [r1, if_pos hk]
        have hne : ¬ (fin.length / W = args.chunk_size - L) := by omega
        simp only [hne, if_false]
        rw [if_neg (by omega)]
        by_cases h0 : fin.length / W = 0
        · simp [h0]
        · simp [h0]
      · simp [hk]
      · rw [store_length _ _ _ (by omega), hlen]
      · exact store_width W _ _ _ hw (fread_width W _ _)

theorem fread_succ_of_le (W n : Nat) (s : Stream) (hW : 0 < W) (hle : W ≤ s.length) :
    fread W (n + 1) s = (s.take W :: (fread W n (s.drop W)).1, (fread W n (s.drop W)).2) := by
  rw [fread, if_neg (by omega), if_pos hle]

theorem records_flatten (W : Nat) (l : List Data) (hW : 0 < W) (hw : width_ok W l) :
    records W l.flatten = l := by
  unfold records
  rw [flatten_length_of_width W l hw, Nat.mul_div_cancel _ hW]
  induction l with
  | nil => simp [fread]
  | cons a l ih =>
    have ha : a.length = W := hw a (List.mem_cons_self _ _)
    have hl : width_ok W l := fun d hd => hw d (List.mem_cons_of_mem _ hd)
    rw [List.length_cons, fread_succ_of_le W _ _ hW
      (by simp only [List.flatten_cons, List.length_append]; omega)]
    simp only [List.flatten_cons, List.cons.injEq]
    constructor
    · exact List.take_left' ha
    · rw [List.drop_left' ha]
      exact ih hl

theorem xor_four (a b c d : Nat) : (a ^^^ b) ^^^ (c ^^^ d) = (a ^^^ c) ^^^ (b ^^^ d) := by
  apply Nat.eq_of_testBit_eq
  intro i
  simp only [Nat.testBit_xor]
  cases a.testBit i <;> cases b.testBit i <;> cases c.testBit i <;> cases d.testBit i <;> rfl

theorem shiftRight_xor (x y k : Nat) : (x >>> k) ^^^ (y >>> k) = (x ^^^ y) >>> k := by
  apply Nat.eq_of_testBit_eq
  intro i
  simp only [Nat.testBit_xor, Nat.testBit_shiftRight]

theorem shiftLeft_mod_xor (x y k n : Nat) :
    ((x <<< k) % 2 ^ n) ^^^ ((y <<< k) % 2 ^ n) = ((x ^^^ y) <<< k) % 2 ^ n := by
  apply Nat.eq_of_testBit_eq
  intro i
  simp only [Nat.testBit_xor, Nat.testBit_mod_two_pow, Nat.testBit_shiftLeft]
  cases decide (i < n) <;> cases decide (i ≥ k) <;> simp

theorem testBit_of_lt_two_pow (x n i : Nat) (hx : x < 2 ^ n) (hi : n ≤ i) :
    x.testBit i = false :=
  Nat.testBit_lt_two_pow (Nat.lt_of_lt_of_le hx (Nat.pow_le_pow_right (by decide) hi))

theorem xor_shiftLeft_mod (x k n : Nat) (hx : x < 2 ^ n) :
    x ^^^ ((x <<< k) % 2 ^ n) = (x ^^^ (x <<< k)) % 2 ^ n := by
  apply Nat.eq_of_testBit_eq
  intro i
  simp only [Nat.testBit_xor, Nat.testBit_mod_two_pow]
  by_cases hi : i < n
  · simp [hi]
  · simp [hi, testBit_of_lt_two_pow x n i hx (by omega)]

theorem xor_shiftRight_lt (x k n : Nat) (hx : x < 2 ^ n) : x ^^^ (x >>> k) < 2 ^ n := by
  apply Nat.xor_lt_two_pow hx
  rw [Nat.shiftRight_eq_div_pow]
  exact Nat.lt_of_le_of_lt (Nat.div_le_self _ _) hx

theorem xor_shiftLeft_lt (x k n : Nat) (hx : x < 2 ^ n) : x ^^^ ((x <<< k) % 2 ^ n) < 2 ^ n :=
  Nat.xor_lt_two_pow hx (Nat.mod_lt _ (Nat.pos_pow_of_pos _ (by decide)))

theorem xor_shiftRight_injective (k : Nat) (hk : 0 < k) (x y : Nat)
    (h : x ^^^ (x >>> k) = y ^^^ (y >>> k)) : x = y := by
  have h1 : (x ^^^ y) ^^^ ((x ^^^ y) >>> k) = 0 := by
    rw [← shiftRight_xor, xor_four, h, Nat.xor_self]
  have h2 : x ^^^ y = (x ^^^ y) >>> k := Nat.xor_eq_zero.mp h1
  have h3 : x ^^^ y = 0 := by
    by_contra hne
    have hpos : 0 < x ^^^ y := Nat.pos_of_ne_zero hne
    have hlt : (x ^^^ y) >>> k < x ^^^ y := by
      rw [Nat.shiftRight_eq_div_pow]
      exact Nat.div_lt_self hpos (Nat.one_lt_two_pow (by omega))
    omega
  exact Nat.xor_eq_zero.mp h3

theorem xor_shiftLeft_injective (k n : Nat) (hk : 0 < k) (x y : Nat)
    (h : x ^^^ ((x <<< k) % 2 ^ n) = y ^^^ ((y <<< k) % 2 ^ n)) : x = y := by
  have h1 : (x ^^^ y) ^^^ (((x ^^^ y) <<< k) % 2 ^ n) = 0 := by
    rw [← shiftLeft_mod_xor, xor_four, h, Nat.xor_self]
  have h2 : x ^^^ y = ((x ^^^ y) <<< k) % 2 ^ n := Nat.xor_eq_zero.mp h1
  have h3 : ∀ i, (x ^^^ y).testBit i = false := by
    intro i
    induction i using Nat.strong_induction_on with
    | _ i ih =>
      rw [h2, Nat.testBit_mod_two_pow, Nat.testBit_shiftLeft]
      by_cases hik : i ≥ k
      · rw [ih (i - k) (by omega)]; simp
      · simp [hik]
  have h4 : x ^^^ y = 0 := by
    apply Nat.eq_of_testBit_eq
    intro i
    rw [h3 i, Nat.zero_testBit]
  exact Nat.xor_eq_zero.mp h4


theorem rand64_state_lt (s : Nat) (hs : s < 2 ^ 64) : (rand64 s).2 < 2 ^ 64 := by
  unfold rand64
  exact xor_shiftRight_lt _ 27 64 (xor_shiftLeft_lt _ 25 64 (xor_shiftRight_lt s 12 64 hs))

theorem rand64_value_lt (s : Nat) : (rand64 s).1 < 2 ^ 64 := by
  unfold rand64
  exact Nat.mod_lt _ (by decide)

theorem rand64_state_injective (x y : Nat) (h : (rand64 x).2 = (rand64 y).2) : x = y := by
  unfold rand64 at h
  exact xor_shiftRight_injective 12 (by decide) x y
    (xor_shiftLeft_injective 25 64 (by decide) _ _
      (xor_shiftRight_injective 27 (by decide) _ _ h))

theorem rand64_state_ne_zero (s : Nat) (hs : s ≠ 0) : (rand64 s).2 ≠ 0 := by
  intro h
  have h0 : (rand64 0).2 = 0 := by decide
  exact hs (rand64_state_injective s 0 (by rw [h, h0]))

theorem rand64_value_ne_zero (s : Nat) (hs : s ≠ 0) (hlt : s < 2 ^ 64) :
    (rand64 s).1 ≠ 0 := by
  have hval : (rand64 s).1 = ((rand64 s).2 * 2685821657736338717) % 2 ^ 64 := rfl
  have h2 := rand64_state_ne_zero s hs
  have h3 := rand64_state_lt s hlt
  intro h
  rw [hval] at h
  have hdvd : 2 ^ 64 ∣ (rand64 s).2 * 2685821657736338717 := Nat.dvd_of_mod_eq_zero h
  have hco : Nat.Coprime (2 ^ 64) 2685821657736338717 := by decide
  have := Nat.le_of_dvd (Nat.pos_of_ne_zero h2) (hco.dvd_of_dvd_mul_right hdvd)
  exact absurd this (Nat.not_le.mpr h3)

theorem rand_state_succ (n seed : Nat) :
    rand_state (n + 1) seed = (rand64 (rand_state n seed)).2 := by
  induction n generalizing seed with
  | zero => rfl
  | succ n ih =>
    show rand_state (n + 1) (rand64 seed).2 = (rand64 (rand_state n (rand64 seed).2)).2
    exact ih _

theorem rand_values_succ (n seed : Nat) :
    rand_values (n + 1) seed = rand_values n seed ++ [(rand64 (rand_state n seed)).1] := by
  induction n generalizing seed with
  | zero => rfl
  | succ n ih =>
    show (rand64 seed).1 :: rand_values (n + 1) (rand64 seed).2 =
      (rand64 seed).1 :: rand_values n (rand64 seed).2 ++ [(rand64 (rand_state n (rand64 seed).2)).1]
    rw [ih]; rfl

theorem rand_state_lt (n seed : Nat) (hs : seed < 2 ^ 64) : rand_state n seed < 2 ^ 64 := by
  induction n with
  | zero => exact hs
  | succ n ih => rw [rand_state_succ]; exact rand64_state_lt _ ih

theorem rand_state_ne_zero (n seed : Nat) (hs : seed ≠ 0) : rand_state n seed ≠ 0 := by
  induction n with
  | zero => exact hs
  | succ n ih => rw [rand_state_succ]; exact rand64_state_ne_zero _ ih

theorem shuffle_and_save_with (count : Nat) (st : Phase1) :
    (shuffle_and_save count st).data =
      shuffle_with ((rand_values count st.seed).map (fun r => r % count)) st.data := by
  rw [shuffle_and_save_eq, swap_pairs_eq]
  unfold shuffle_with
  simp only [List.length_map, rand_values_length, List.foldl_map]

theorem events_print_cons_read (L rs er : Nat) (evs : List Event) (m : Message) :
    Event.print m ∈ Event.read L rs er :: evs ↔ Event.print m ∈ evs := by
  simp

/-- Every line among the events of one `shuffle_and_save` is printed in verbose mode and is
the line of that spill. -/
theorem shuffle_events_prints (args : arguments) (count : Nat) (st : Phase1) (m : Message)
    (h : Event.print m ∈ shuffle_events args count st) :
    args.verbose = true ∧ m = Message.read_saved count st.nfiles ∧
      Event.spill count st.nfiles ∈ shuffle_events args count st := by
  unfold shuffle_events at h ⊢
  simp only [List.mem_cons, reduceCtorEq, false_or] at h
  by_cases hv : args.verbose = true
  · simp only [hv, if_true, List.mem_singleton, Event.print.injEq] at h
    exact ⟨hv, h, by simp⟩
  · simp [hv] at h

/-- One iteration of the loop of `process_input_file`, as events: the read, the spill if the
chunk is full, and the events of the iterations that follow. -/
theorem process_events_succ (W : Nat) (args : arguments) (fuel : Nat) (fin : Stream) (L : Nat)
    (st : Phase1) :
    process_events W args (fuel + 1) fin L st =
      Event.read L (args.chunk_size - L) (fread W (args.chunk_size - L) fin).1.length ::
        ((if (fread W (args.chunk_size - L) fin).1.length = args.chunk_size - L then
            shuffle_events args args.chunk_size
              { st with data := store st.data L (fread W (args.chunk_size - L) fin).1 }
          else []) ++
        (if (fread W (args.chunk_size - L) fin).1.length = args.chunk_size - L ∧
            (fread W (args.chunk_size - L) fin).1.length ≠ 0 then
            process_events W args fuel (fread W (args.chunk_size - L) fin).2 0
              (shuffle_and_save args.chunk_size
                { st with data := store st.data L (fread W (args.chunk_size - L) fin).1 })
          else [])) := by
  rw [process_events]
  by_cases h1 : (fread W (args.chunk_size - L) fin).1.length = args.chunk_size - L
  · by_cases h2 : (fread W (args.chunk_size - L) fin).1.length = 0
    · have h3 : args.chunk_size - L = 0 := by omega
      simp [h1, h3]
    · have h3 : ¬ (args.chunk_size - L = 0) := by omega
      simp [h1, h3]
  · by_cases h2 : (fread W (args.chunk_size - L) fin).1.length = 0
    · simp [h1, h2]
    · simp [h1, h2]

/-- The lines printed by the loop of `process_input_file` are those of its spills. -/
theorem process_events_prints (W : Nat) (args : arguments) :
    ∀ (fuel : Nat) (fin : Stream) (L : Nat) (st : Phase1) (m : Message),
      Event.print m ∈ process_events W args fuel fin L st →
      args.verbose = true ∧ ∃ count file, m = Message.read_saved count file ∧
        Event.spill count file ∈ process_events W args fuel fin L st := by
  intro fuel
  induction fuel with
  | zero => intro fin L st m h; simp [process_events] at h
  | succ fuel ih =>
    intro fin L st m h
    rw [process_events_succ] at h ⊢
    rw [events_print_cons_read, List.mem_append] at h
    rcases h with h | h
    · split at h
      · obtain ⟨h1, h2, h3⟩ := shuffle_events_prints _ _ _ _ h
        refine ⟨h1, _, _, h2, ?_⟩
        rename_i heq
        rw [if_pos heq]
        simp [h3]
      · simp at h
    · split at h
      · obtain ⟨h1, c, f, h2, h3⟩ := ih _ _ _ _ h
        refine ⟨h1, c, f, h2, ?_⟩
        rename_i heq
        rw [if_pos heq]
        simp [h3]
      · simp at h


theorem prints_ok_nil (args : arguments) : prints_ok args [] := by
  intro m h; simp at h

theorem prints_ok_append (args : arguments) (l1 l2 : List Event) (h1 : prints_ok args l1)
    (h2 : prints_ok args l2) : prints_ok args (l1 ++ l2) := by
  intro m h
  rw [List.mem_append] at h
  rcases h with h | h
  · obtain ⟨a, c, f, b, d⟩ := h1 m h
    exact ⟨a, c, f, b, by simp [d]⟩
  · obtain ⟨a, c, f, b, d⟩ := h2 m h
    exact ⟨a, c, f, b, by simp [d]⟩

theorem prints_ok_shuffle (args : arguments) (count : Nat) (st : Phase1) :
    prints_ok args (shuffle_events args count st) := by
  intro m h
  obtain ⟨h1, h2, h3⟩ := shuffle_events_prints args count st m h
  exact ⟨h1, _, _, h2, h3⟩

theorem prints_ok_process (W : Nat) (args : arguments) (fuel : Nat) (fin : Stream) (L : Nat)
    (st : Phase1) : prints_ok args (process_events W args fuel fin L st) :=
  fun m h => process_events_prints W args fuel fin L st m h

theorem prints_ok_directory (W : Nat) (args : arguments) :
    ∀ (entries : List (List Char × Stream)) (L : Nat) (st : Phase1),
      prints_ok args (read_directory_events W args entries L st) := by
  intro entries
  induction entries with
  | nil => intro L st; exact prints_ok_nil args
  | cons entry rest ih =>
    intro L st
    obtain ⟨d_name, fin⟩ := entry
    unfold read_directory_events
    split
    · exact ih L st
    · apply prints_ok_append _ _ _ (prints_ok_process _ _ _ _ _ _)
      split
      · exact prints_ok_nil args
      · exact ih _ _

theorem prints_ok_all (W : Nat) (args : arguments) (src : Sources) (seed : Nat) :
    prints_ok args (read_all_events W args src seed) := by
  obtain ⟨dir, inp⟩ := src
  unfold read_all_events
  have hdir : prints_ok args
      (match dir with
        | none => []
        | some entries => read_directory_events W args entries 0
            { seed := seed, data := malloc_data W args.chunk_size, nfiles := 0, files := [] }) := by
    cases dir with
    | none => exact prints_ok_nil args
    | some entries => exact prints_ok_directory W args entries 0 _
  dsimp only
  split
  · exact hdir
  · rename_i l st1 _
    have hin : prints_ok args
        (match inp with
          | none => []
          | some fin => process_events W args ((skip_header args fin).length + 1)
              (skip_header args fin) l st1) := by
      cases inp with
      | none => exact prints_ok_nil args
      | some fin => exact prints_ok_process _ _ _ _ _ _
    split
    · exact prints_ok_append _ _ _ hdir hin
    · apply prints_ok_append _ _ _ (prints_ok_append _ _ _ hdir hin)
      split
      · exact prints_ok_shuffle _ _ _
      · exact prints_ok_nil args

/-- Phase 1 on a single input file that holds no whole record: nothing is spilled. -/
theorem read_no_records (W : Nat) (args : arguments) (fin : Stream) (seed : Nat)
    (hW : 0 < W) (hC : 1 ≤ args.chunk_size) (h : (skip_header args fin).length < W) :
    ∃ st, read_all_input_files W args { directory := none, input := some fin } seed =
        some (0, st) ∧ st.nfiles = 0 ∧ st.files = [] := by
  obtain ⟨st, e1, e2, e3, -⟩ := read_single_input W args fin seed hW hC
  have hT : (skip_header args fin).length / W = 0 := Nat.div_eq_of_lt h
  rw [hT] at e1 e2
  have hn : st.nfiles = 0 := by
    rw [e2, Nat.zero_add]
    exact Nat.div_eq_of_lt (by omega)
  refine ⟨st, by simpa using e1, hn, ?_⟩
  rw [hn] at e3
  simpa using e3

/-- One draw under the Phase 2 bookkeeping: the record written is the next `W` bytes of the
selected partial file, whatever the output file holds already. -/
theorem pop_draw_spec (W : Nat) (init : List Nat) (junk : Data) (st : Phase2)
    (total saved : Nat) (hW : 0 < W) (hinv : merge_inv W init total saved st)
    (hlt : saved < total) :
    ∃ idx d st1, idx < st.remaining.length ∧
      pop_draw W junk st (total - saved) = some (idx, d) ∧
      (∀ fout, pop_and_save W junk fout st (total - saved) = some (fout ++ d, st1)) ∧
      d.length = W ∧ merge_inv W init total (saved + 1) st1 ∧
      d ++ st1.partials.getD idx [] = st.partials.getD idx [] ∧
      (∀ i, i ≠ idx → st1.partials.getD i [] = st.partials.getD i []) := by
  have hinv0 := hinv
  obtain ⟨hp, hc, hsum, hbytes, -, -, -, -⟩ := hinv
  obtain ⟨idx, hidx, hscan, h1, -, -, hres⟩ :=
    pop_and_save_step W junk [] st (total - saved) (by omega) (by omega) hp hc
  have hpi : idx < st.partials.length := by omega
  have hb := hbytes idx hidx
  rw [List.getD_eq_getElem _ _ hpi, List.getD_eq_getElem _ _ hidx] at hb
  have hWle : W ≤ (st.partials[idx]).length := by
    rw [hb]; exact Nat.le_mul_of_pos_left W h1
  have hfr := fread_one W st.partials[idx] hW hWle
  have hget : st.partials.get ⟨idx, by omega⟩ = st.partials[idx] := rfl
  obtain ⟨d, st1, e1, e2, e3⟩ := pop_and_save_inv W init junk [] st total saved hW hinv0 hlt
  have hall : ∀ fout, pop_and_save W junk fout st (total - saved) = some (fout ++ d, st1) := by
    intro fout
    obtain ⟨idx2, hidx2, hscan2, -, -, -, hres2⟩ :=
      pop_and_save_step W junk fout st (total - saved) (by omega) (by omega) hp hc
    have hii : idx2 = idx := by
      rw [hscan] at hscan2
      exact (Option.some.inj hscan2).symm
    subst hii
    rw [hres] at e1
    simp only [List.nil_append, Option.some.injEq, Prod.mk.injEq] at e1
    rw [hres2, e1.1, e1.2]
  have hd : d = st.partials[idx].take W := by
    rw [hres] at e1
    simp only [List.nil_append, Option.some.injEq, Prod.mk.injEq] at e1
    rw [← e1.1, hget, hfr]; rfl
  have hparts : st1.partials = st.partials.set idx (st.partials[idx].drop W) := by
    rw [hres] at e1
    simp only [List.nil_append, Option.some.injEq, Prod.mk.injEq] at e1
    rw [← e1.2]
    simp only [hget, hfr]
  refine ⟨idx, d, st1, hidx, ?_, hall, e2, e3, ?_, ?_⟩
  · unfold pop_draw
    rw [if_neg (by omega)]
    simp only [hscan, List.getElem?_eq_getElem hpi, hfr, hd]
    rfl
  · rw [hparts, getD_set_self _ _ _ _ hpi, List.getD_eq_getElem _ _ hpi, hd,
      List.take_append_drop]
  · intro i hi
    rw [hparts, getD_set_ne _ _ _ _ _ (Ne.symm hi)]


theorem drawn_from_nil (i : Nat) : drawn_from i [] = [] := rfl

theorem drawn_from_cons_self (i : Nat) (d : Data) (ds : List (Nat × Data)) :
    drawn_from i ((i, d) :: ds) = d :: drawn_from i ds := by
  simp [drawn_from]

theorem drawn_from_cons_ne (i j : Nat) (d : Data) (ds : List (Nat × Data)) (h : j ≠ i) :
    drawn_from i ((j, d) :: ds) = drawn_from i ds := by
  simp [drawn_from, h]

theorem drawn_from_append (i : Nat) (l1 l2 : List (Nat × Data)) :
    drawn_from i (l1 ++ l2) = drawn_from i l1 ++ drawn_from i l2 := by
  simp [drawn_from]

/-- The inner loop under the Phase 2 bookkeeping, draw by draw: what it appends to the
output file are the drawn records in order, and the records drawn from a partial file
followed by what is left of the file are the file as it was. -/
theorem fill_draws_spec (W : Nat) (init : List Nat) (junk : Data) (total : Nat) (hW : 0 < W) :
    ∀ (n : Nat) (st : Phase2) (saved : Nat), merge_inv W init total saved st →
      ∃ st1,
        (∀ fout, fill_output W junk total n fout st saved =
          some (fout ++ ((fill_draws W junk total n st saved).map Prod.snd).flatten, st1,
            saved + min n (total - saved))) ∧
        merge_inv W init total (saved + min n (total - saved)) st1 ∧
        (∀ d ∈ fill_draws W junk total n st saved, d.1 < init.length ∧ d.2.length = W) ∧
        (∀ i, (drawn_from i (fill_draws W junk total n st saved)).flatten ++
          st1.partials.getD i [] = st.partials.getD i []) ∧
        (fill_draws W junk total n st saved).length = min n (total - saved) := by
  intro n
  induction n with
  | zero =>
    intro st saved hinv
    refine ⟨st, fun fout => by simp [fill_output, fill_draws], by simpa using hinv,
      by simp [fill_draws], fun i => by simp [fill_draws, drawn_from], by simp [fill_draws]⟩
  | succ n ih =>
    intro st saved hinv
    have hle : saved ≤ total := by have := hinv.2.2.1; omega
    have hilen : init.length = st.remaining.length := hinv.2.2.2.2.2.2.1
    by_cases hne : total ≠ saved
    · obtain ⟨idx, d, st1, hidx, e1, e2, e3, e4, e5, e6⟩ :=
        pop_draw_spec W init junk st total saved hW hinv (by omega)
      obtain ⟨st2, g1, g2, g3, g4, g5⟩ := ih st1 (saved + 1) e4
      have hmin : saved + 1 + min n (total - (saved + 1)) = saved + min (n + 1) (total - saved) := by
        omega
      have hmin2 : min (n + 1) (total - saved) = min n (total - (saved + 1)) + 1 := by omega
      have hfd : fill_draws W junk total (n + 1) st saved =
          (idx, d) :: fill_draws W junk total n st1 (saved + 1) := by
        rw [fill_draws, if_pos hne]
        simp only [e1, e2 []]
      refine ⟨st2, ?_, ?_, ?_, ?_, ?_⟩
      · intro fout
        rw [fill_output, if_pos hne]
        simp only [e2 fout, g1 (fout ++ d), hfd, hmin, List.map_cons, List.flatten_cons,
          List.append_assoc]
      · rw [← hmin]; exact g2
      · intro x hx
        rw [hfd, List.mem_cons] at hx
        rcases hx with hx | hx
        · rw [hx]; exact ⟨by simp only []; omega, e3⟩
        · exact g3 x hx
      · intro i
        rw [hfd]
        by_cases hi : idx = i
        · subst hi
          rw [drawn_from_cons_self, List.flatten_cons, List.append_assoc, g4 idx, e5]
        · rw [drawn_from_cons_ne _ _ _ _ hi, g4 i, e6 i (Ne.symm hi)]
      · rw [hfd, List.length_cons, g5, hmin2]
    · have heq : total = saved := by omega
      have hz : min (n + 1) (total - saved) = 0 := by omega
      have hfd : fill_draws W junk total (n + 1) st saved = [] := by
        rw [fill_draws, if_neg hne]
      refine ⟨st, ?_, by rw [hz]; simpa using hinv, by simp [hfd], fun i => by simp [hfd, drawn_from],
        by simp [hfd, hz]⟩
      intro fout
      rw [fill_output, if_neg hne, hfd, hz]
      simp


/-- The outer loop under the Phase 2 bookkeeping, draw by draw. -/
theorem output_draws_spec (W : Nat) (init : List Nat) (junk : Data) (args : arguments)
    (total entries_per : Nat) (hW : 0 < W) :
    ∀ (n : Nat) (st : Phase2) (saved : Nat) (outs : List Stream),
      merge_inv W init total saved st →
      ∃ (bodies : List Stream) (st1 : Phase2),
        output_loop W junk args total entries_per n st saved outs =
          some (outs ++ bodies.map (fun b => List.replicate args.write_header 0 ++ b), st1,
            min total (saved + n * entries_per)) ∧
        bodies.flatten =
          ((output_draws W junk args total entries_per n st saved).map Prod.snd).flatten ∧
        merge_inv W init total (min total (saved + n * entries_per)) st1 ∧
        (∀ d ∈ output_draws W junk args total entries_per n st saved,
          d.1 < init.length ∧ d.2.length = W) ∧
        (∀ i, (drawn_from i (output_draws W junk args total entries_per n st saved)).flatten ++
          st1.partials.getD i [] = st.partials.getD i []) ∧
        (output_draws W junk args total entries_per n st saved).length =
          min total (saved + n * entries_per) - saved := by
  intro n
  induction n with
  | zero =>
    intro st saved outs hinv
    have hle : saved ≤ total := by have := hinv.2.2.1; omega
    have hz : min total (saved + 0 * entries_per) = saved := by
      rw [Nat.zero_mul]; omega
    refine ⟨[], st, by simp [output_loop, hle], by simp [output_draws], by rw [hz]; exact hinv,
      by simp [output_draws], fun i => by simp [output_draws, drawn_from], ?_⟩
    rw [hz]; simp [output_draws]
  | succ n ih =>
    intro st saved outs hinv
    have hle : saved ≤ total := by have := hinv.2.2.1; omega
    obtain ⟨st1, e1, e2, e3, e4, e5⟩ := fill_draws_spec W init junk total hW entries_per st saved hinv
    obtain ⟨bodies, st2, g1, g2, g3, g4, g5, g6⟩ := ih st1 (saved + min entries_per (total - saved))
      (outs ++ [List.replicate args.write_header 0 ++
        ((fill_draws W junk total entries_per st saved).map Prod.snd).flatten]) e2
    have hsaved : min total (saved + min entries_per (total - saved) + n * entries_per) =
        min total (saved + (n + 1) * entries_per) := by
      rw [Nat.succ_mul]; omega
    have hod : output_draws W junk args total entries_per (n + 1) st saved =
        fill_draws W junk total entries_per st saved ++
          output_draws W junk args total entries_per n st1
            (saved + min entries_per (total - saved)) := by
      rw [output_draws]
      simp only [header_eq, e1]
    refine ⟨((fill_draws W junk total entries_per st saved).map Prod.snd).flatten :: bodies, st2,
      ?_, ?_, ?_, ?_, ?_, ?_⟩
    · rw [output_loop]
      simp only [header_eq, e1, g1, hsaved, List.map_cons, List.append_assoc,
        List.singleton_append]
    · rw [hod, List.flatten_cons, g2, List.map_append, List.flatten_append]
    · rw [← hsaved]; exact g3
    · intro d hd
      rw [hod, List.mem_append] at hd
      rcases hd with hd | hd
      · exact e3 d hd
      · exact g4 d hd
    · intro i
      rw [hod, drawn_from_append, List.flatten_append, List.append_assoc, g5 i, e4 i]
    · rw [hod, List.length_append, e5, g6, hsaved]
      rw [Nat.succ_mul]; omega


/-- The output files of the code have room for every record when their number is below
`2^31`. -/
theorem output_room (args : arguments) (total : Nat) (hsize : total < 2 ^ 64)
    (hfit : args.per_file ≠ 0 → 1 + (total - 1) / args.per_file < 2 ^ 31) :
    total ≤ (cnt_output_files args total).toNat *
      (if args.per_file = 0 then total else args.per_file) := by
  by_cases hpf : args.per_file = 0
  · rw [cnt_output_files_single args total hpf, if_pos hpf]; omega
  · rw [if_neg hpf]
    by_cases ht : total = 0
    · rw [ht]; exact Nat.zero_le _
    · obtain ⟨-, c2, -⟩ := cnt_output_files_pos total args.per_file (by omega) (by omega) hsize
      rw [cnt_output_files_fit args total (by omega) (by omega) hsize (hfit hpf)]
      exact c2

theorem phase2_draws_eq (W : Nat) (junk : Data) (args : arguments) (st : Phase2)
    (nfiles last : Nat) (hn : 0 < nfiles)
    (hshape : st.remaining = List.replicate (nfiles - 1) args.chunk_size ++ [last])
    (hsize : st.remaining.sum < 2 ^ 64) :
    phase2_draws W junk args st nfiles =
      output_draws W junk args st.remaining.sum
        (if args.per_file = 0 then st.remaining.sum else args.per_file)
        (cnt_output_files args st.remaining.sum).toNat st 0 ∧
    output_from_partials W junk args st nfiles =
      output_loop W junk args st.remaining.sum
        (if args.per_file = 0 then st.remaining.sum else args.per_file)
        (cnt_output_files args st.remaining.sum).toNat st 0 [] := by
  have hsum : st.remaining.sum = last + args.chunk_size * (nfiles - 1) := by
    rw [hshape, sum_shape]
  have hlast : st.remaining[nfiles - 1]? = some last := by
    rw [hshape, List.getElem?_append_right (by simp)]
    simp
  have hmod : (last + args.chunk_size * (nfiles - 1)) % 2 ^ 64 = st.remaining.sum := by
    rw [← hsum]; exact Nat.mod_eq_of_lt hsize
  unfold phase2_draws output_from_partials
  have hn0 : ¬ nfiles = 0 := by omega
  simp only [hn0, if_false, hlast, hmod, and_self]

theorem records_length (W : Nat) (s : Stream) (hW : 0 < W) :
    (records W s).length = s.length / W := by
  unfold records
  exact (fread_full W (s.length / W) s hW (Nat.div_mul_le_self _ _)).1

/-- A call of `swap_data` with both indices inside the array is defined, exchanges the two
elements and leaves every other one in place. -/
theorem swap_data_exchange (d : List Data) (x y : Nat) (hx : x < d.length)
    (hy : y < d.length) :
    ∃ d1, swap_data d x y = some d1 ∧ d1.length = d.length ∧
      d1[x]? = d[y]? ∧ d1[y]? = d[x]? ∧ ∀ k, k ≠ x → k ≠ y → d1[k]? = d[k]? := by
  refine ⟨(d.set x d[y]).set y d[x], ?_, by simp, ?_, ?_, ?_⟩
  · unfold swap_data
    rw [if_pos ⟨Int.ofNat_nonneg x, Int.ofNat_nonneg y⟩]
    simp only [Int.toNat_ofNat, List.getElem?_eq_getElem hx, List.getElem?_eq_getElem hy]
  · by_cases hxy : y = x
    · subst hxy; simp [List.getElem?_set, hx]
    · simp [List.getElem?_set, hxy, hx, hy]
  · simp [List.getElem?_set, hx, hy]
  · intro k hkx hky
    simp [List.getElem?_set, Ne.symm hkx, Ne.symm hky]

/-- A call of `swap_data` with a negative first index is outside the array. -/
theorem swap_data_negative (d : List Data) (x y : Int) (hx : x < 0) : swap_data d x y = none := by
  unfold swap_data
  rw [if_neg (by omega)]

/-- When every pair of indices lies in `[0, n)` and the buffer holds `n` records, every call
of `swap_data` in the sequence is defined, and the sequence of calls gives the buffer the
shuffle loop computes. -/
theorem foldlM_swap_defined (n : Nat) (ps : List (Int × Int)) (data : List Data)
    (h : ∀ p ∈ ps, 0 ≤ p.1 ∧ p.1 < n ∧ 0 ≤ p.2 ∧ p.2 < n) (hn : n ≤ data.length) :
    ps.foldlM (fun d p => swap_data d p.1 p.2) data =
      some (ps.foldl (fun d p => (swap_data d p.1 p.2).getD d) data) := by
  induction ps generalizing data with
  | nil => rfl
  | cons p ps ih =>
    obtain ⟨h1, h2, h3, h4⟩ := h p (List.mem_cons_self _ _)
    have e1 : p.1 = ((p.1.toNat : Nat) : Int) := (Int.toNat_of_nonneg h1).symm
    have e2 : p.2 = ((p.2.toNat : Nat) : Int) := (Int.toNat_of_nonneg h3).symm
    obtain ⟨d1, hd1, hl1, -⟩ := swap_data_exchange data p.1.toNat p.2.toNat (by omega) (by omega)
    rw [← e1, ← e2] at hd1
    rw [List.foldlM_cons, List.foldl_cons, hd1]
    exact ih d1 (fun q hq => h q (List.mem_cons_of_mem _ hq)) (by omega)

/-- A sequence of calls of `swap_data` that contains a negative first index runs into a call
outside the array. -/
theorem foldlM_swap_undefined (ps : List (Int × Int)) (data : List Data)
    (h : ∃ p ∈ ps, p.1 < 0) : ps.foldlM (fun d p => swap_data d p.1 p.2) data = none := by
  induction ps generalizing data with
  | nil => obtain ⟨p, hp, -⟩ := h; simp at hp
  | cons q ps ih =>
    rw [List.foldlM_cons]
    cases hq : swap_data data q.1 q.2 with
    | none => rfl
    | some d1 =>
      obtain ⟨p, hp, hneg⟩ := h
      rcases List.mem_cons.mp hp with hpq | hps
      · rw [hpq] at hneg
        rw [swap_data_negative data q.1 q.2 hneg] at hq
        exact absurd hq (by simp)
      · exact ih d1 ⟨p, hps, hneg⟩

/-- The first `int` argument of the `i`-th call of `swap_data` in a shuffle. -/
theorem swap_pairs_fst (count seed i : Nat) (h : i < count) :
    ((swap_pairs count seed).map Prod.fst)[i]? = some (to_int i) := by
  unfold swap_pairs
  rw [List.map_fst_zip _ _ (by simp [rand_values_length]), List.getElem?_map,
    List.getElem?_range' _ _ h]
  simp

/-- For a chunk of at most `2^31` records the conversions to `int` keep every index. -/
theorem swap_pairs_small (count seed : Nat) (hc : count ≤ 2 ^ 31) :
    swap_pairs count seed =
      ((List.range count).zip ((rand_values count seed).map (fun r => r % count))).map
        (fun p => ((p.1 : Int), (p.2 : Int))) := by
  rw [swap_pairs_eq]
  apply List.map_congr_left
  intro p hp
  have h1 := (List.of_mem_zip hp).1
  have h2 := (List.of_mem_zip hp).2
  have h1c : p.1 < count := by simpa using h1
  obtain ⟨r, _, hr⟩ := List.mem_map.mp h2
  have h2c : p.2 < count := by rw [← hr]; exact Nat.mod_lt _ (by omega)
  rw [to_int_of_lt _ (by omega), to_int_of_lt _ (by omega)]

theorem swap_pairs_bounds (count seed : Nat) (hc : count ≤ 2 ^ 31) (p : Int × Int)
    (hp : p ∈ swap_pairs count seed) : 0 ≤ p.1 ∧ p.1 < count ∧ 0 ≤ p.2 ∧ p.2 < count := by
  obtain ⟨h1, h2⟩ := swap_pairs_lt count seed p hp
  rw [swap_pairs_small count seed hc] at hp
  obtain ⟨q, _, hq⟩ := List.mem_map.mp hp
  rw [← hq]
  rw [← hq] at h1 h2
  exact ⟨Int.ofNat_nonneg _, h1, Int.ofNat_nonneg _, h2⟩

theorem swap_pairs_length (count seed : Nat) : (swap_pairs count seed).length = count := by
  unfold swap_pairs
  simp [rand_values_length]

/-! ## The claims -/

/-- C1 fails on the code. Chunk size 4, one-byte records, a directory of two files holding the
records `10, 20` and `30`: the run ends normally with a single output file that holds the one
record `10`; the records `20` and `30` are in no output.  With a second file that holds no
record, or a single empty input file, no partial file exists and Phase 2 reads
`remaining[-1]`. -/
theorem conservation_fails_across_sources :
    (main 1 [0]
        { verbose := false, per_file := 0, chunk_size := 4, read_header := 0, write_header := 0 }
        { directory := some [(['a'], [10, 20]), (['b'], [30])], input := none }).map
        (fun r => (r.1, r.2.2)) = some ([[10]], 1) ∧
    main 1 [0]
        { verbose := false, per_file := 0, chunk_size := 4, read_header := 0, write_header := 0 }
        { directory := some [(['a'], [10, 20]), (['b'], [])], input := none } = none := by
  decide

/-- C2 fails on the code. Chunk size 4, two records `[10]`, `[20]` carried over in the chunk
(leftover 2), next source holding the single record `[30]`: `process_input_file` stores the
record behind the carried ones but returns leftover 1 instead of `(2 + 1) % 4 = 3`; and a
source with no record at all returns leftover 0 instead of 2.  Over the directory of the two
files `[10, 20]` and `[30]` the only partial file holds one record, though three were read. -/
theorem leftover_carry_lost :
    process_input_file 1
        { verbose := false, per_file := 0, chunk_size := 4, read_header := 0, write_header := 0 }
        [30] 2 { seed := 1070372, data := [[10], [20], [0], [0]], nfiles := 0, files := [] } =
      some (1, { seed := 1070372, data := [[10], [20], [30], [0]], nfiles := 0, files := [] }) ∧
    process_input_file 1
        { verbose := false, per_file := 0, chunk_size := 4, read_header := 0, write_header := 0 }
        [] 2 { seed := 1070372, data := [[10], [20], [0], [0]], nfiles := 0, files := [] } =
      some (0, { seed := 1070372, data := [[10], [20], [0], [0]], nfiles := 0, files := [] }) ∧
    (read_all_input_files 1
        { verbose := false, per_file := 0, chunk_size := 4, read_header := 0, write_header := 0 }
        { directory := some [(['a'], [10, 20]), (['b'], [30])], input := none } 1070372).map
        (fun r => (r.1, r.2.files)) = some (1, [(0, [10])]) := by
  decide

/-- C4 fails for a chunk of more than `2^31` records. In the shuffle of `2^31 + 1` records the
loop index `i = 2^31`, a `size_t`, reaches the `int` parameter `x` of `swap_data` as `-2^31`:
whatever the second index, that call is not a swap of position `i` with a position of the
chunk, it accesses `data[-2147483648]`, so the calls of the loop are not all defined. -/
theorem swap_index_not_in_chunk :
    long_chunk.data.length = 2147483649 ∧
    ((swap_pairs 2147483649 long_chunk.seed).map Prod.fst)[2147483648]? =
      some (-2147483648) ∧
    to_int 2147483648 = -2147483648 ∧
    (∀ y : Int, swap_data long_chunk.data (-2147483648) y = none) ∧
    (swap_pairs 2147483649 long_chunk.seed).foldlM (fun d p => swap_data d p.1 p.2)
      long_chunk.data = none := by
  have h1 : ((swap_pairs 2147483649 long_chunk.seed).map Prod.fst)[2147483648]? =
      some (-2147483648) := by
    rw [swap_pairs_fst _ _ _ (by decide)]
    decide
  refine ⟨?_, h1, by decide, fun y => swap_data_negative _ _ _ (by decide), ?_⟩
  · simp only [long_chunk, List.length_replicate]
  · apply foldlM_swap_undefined
    obtain ⟨p, hp, hp1⟩ := List.mem_map.mp (List.mem_iff_getElem?.mpr ⟨_, h1⟩)
    exact ⟨p, hp, by rw [hp1]; decide⟩

/-- C4, for a chunk of `count <= 2^31` records held in the buffer. `shuffle_and_save` calls
`swap_data` once for each `i = 0 .. count - 1`, with the positions `i` and `next() % count`,
which reach its `int` parameters unchanged and lie in `[0, count)`; every one of these calls
is inside the array, and their sequence gives the buffer that `shuffle_and_save` leaves,
where a call with both indices inside the array exchanges the two records and moves no
other.  The first `count` records after the shuffle, which are what is written to the
partial file, are a permutation of the first `count` records before it, and `count` in
number. -/
theorem shuffle_and_save_permutes (count : Nat) (st : Phase1) (hc : count ≤ 2 ^ 31)
    (hlen : count ≤ st.data.length) :
    swap_pairs count st.seed =
        ((List.range count).zip ((rand_values count st.seed).map (fun r => r % count))).map
          (fun p => ((p.1 : Int), (p.2 : Int))) ∧
      (swap_pairs count st.seed).length = count ∧
      (∀ p ∈ swap_pairs count st.seed, 0 ≤ p.1 ∧ p.1 < count ∧ 0 ≤ p.2 ∧ p.2 < count) ∧
      (swap_pairs count st.seed).foldlM (fun d p => swap_data d p.1 p.2) st.data =
        some (shuffle_and_save count st).data ∧
      (∀ (d : List Data) (x y : Nat), x < d.length → y < d.length →
        ∃ d1, swap_data d x y = some d1 ∧ d1.length = d.length ∧
          d1[x]? = d[y]? ∧ d1[y]? = d[x]? ∧ ∀ k, k ≠ x → k ≠ y → d1[k]? = d[k]?) ∧
      ((shuffle_and_save count st).data.take count).Perm (st.data.take count) ∧
      ((shuffle_and_save count st).data.take count).length = count ∧
      (count ≠ 0 → (shuffle_and_save count st).files =
        st.files ++ [(st.nfiles, ((shuffle_and_save count st).data.take count).flatten)]) := by
  have hlt := swap_pairs_lt count st.seed
  have hperm := foldl_swap_take_perm count (swap_pairs count st.seed) st.data hlt
  have hb := swap_pairs_bounds count st.seed hc
  rw [shuffle_and_save_eq]
  refine ⟨swap_pairs_small count st.seed hc, swap_pairs_length count st.seed, hb,
    foldlM_swap_defined count _ _ hb hlen, swap_data_exchange, hperm, ?_, ?_⟩
  · rw [hperm.length_eq, List.length_take]
    omega
  · intro h; simp [h]

/-- C4 on the chunk `[1], [2], [3]` from the initial generator state. -/
theorem shuffle_and_save_permutes_witness :
    (3 ≤ 2 ^ 31 ∧ 3 ≤ sample_chunk.data.length) ∧
    (swap_pairs 3 sample_chunk.seed =
        ((List.range 3).zip ((rand_values 3 sample_chunk.seed).map (fun r : Nat => r % 3))).map
          (fun p : Nat × Nat => ((p.1 : Int), (p.2 : Int))) ∧
      (swap_pairs 3 sample_chunk.seed).length = 3 ∧
      (∀ p ∈ swap_pairs 3 sample_chunk.seed,
        0 ≤ p.1 ∧ p.1 < (3 : Nat) ∧ 0 ≤ p.2 ∧ p.2 < (3 : Nat)) ∧
      (swap_pairs 3 sample_chunk.seed).foldlM (fun d p => swap_data d p.1 p.2)
          sample_chunk.data =
        some (shuffle_and_save 3 sample_chunk).data ∧
      (∀ (d : List Data) (x y : Nat), x < d.length → y < d.length →
        ∃ d1, swap_data d x y = some d1 ∧ d1.length = d.length ∧
          d1[x]? = d[y]? ∧ d1[y]? = d[x]? ∧ ∀ k, k ≠ x → k ≠ y → d1[k]? = d[k]?) ∧
      ((shuffle_and_save 3 sample_chunk).data.take 3).Perm (sample_chunk.data.take 3) ∧
      ((shuffle_and_save 3 sample_chunk).data.take 3).length = 3 ∧
      (3 ≠ 0 → (shuffle_and_save 3 sample_chunk).files =
        sample_chunk.files ++
          [(sample_chunk.nfiles, ((shuffle_and_save 3 sample_chunk).data.take 3).flatten)])) :=
  ⟨⟨by decide, by decide⟩, shuffle_and_save_permutes 3 sample_chunk (by decide) (by decide)⟩

/-- C5 fails when the output files number `2^31` or more. Chunk size `2^31`, one partial file
of `2^31` one-byte records with its exact count, `per_file = 1`: the file count
`1 + (2^31 - 1) / 1 = 2^31` is stored in the `int` `cnt_output_files` as `-2^31`, the loop
over the output files does not run, and `output_from_partials` returns with no output file
and no record written, the count still `2^31` and the partial file neither read nor
closed. -/
theorem postcondition_fails_on_file_count :
    (0 < 1 ∧
      long_file.remaining = List.replicate (1 - 1) (long_args 1).chunk_size ++ [2147483648] ∧
      long_file.partials.map List.length = long_file.remaining.map (fun r => r * 1) ∧
      long_file.closes = List.replicate long_file.remaining.length 0 ∧
      long_file.errors = 0 ∧ long_file.remaining.sum = 2147483648) ∧
    cnt_output_files (long_args 1) 2147483648 = -2147483648 ∧
    output_from_partials 1 [0] (long_args 1) long_file 1 = some ([], long_file, 0) := by
  refine ⟨⟨by decide, by decide, ?_, by decide, by decide, by decide⟩, by decide, ?_⟩
  · simp only [long_file, sample_state, List.map_cons, List.map_nil, List.length_replicate,
      Nat.mul_one]
  · rfl

/-- C5, for fewer than `2^31` output files. Phase 2 on a non-empty array of counts, all
`chunk_size >= 1` but the last, which is at least 1, with partial files holding exactly that
many records and none closed yet, when the number of output files
`1 + (total - 1) / per_file` is below `2^31`: it returns having written
`total = sum(remaining)` records over the output files (each file the header followed by its
records), every count is zero, every partial file is read to its end and has been closed
exactly once, and no read failed. -/
theorem output_from_partials_postcondition (W : Nat) (junk : Data) (args : arguments)
    (st : Phase2) (nfiles last : Nat) (hW : 0 < W) (hn : 0 < nfiles)
    (hshape : st.remaining = List.replicate (nfiles - 1) args.chunk_size ++ [last])
    (hp : st.partials.map List.length = st.remaining.map (fun r => r * W))
    (hcl : st.closes = List.replicate st.remaining.length 0) (herr : st.errors = 0)
    (hsize : st.remaining.sum < 2 ^ 64) (hC : 1 ≤ args.chunk_size) (hlast : 1 ≤ last)
    (hfit : args.per_file ≠ 0 → 1 + (st.remaining.sum - 1) / args.per_file < 2 ^ 31) :
    ∃ (bodies : List Stream) (st1 : Phase2),
      output_from_partials W junk args st nfiles =
        some (bodies.map (fun b => List.replicate args.write_header 0 ++ b), st1,
          st.remaining.sum) ∧
      (bodies.map List.length).sum = st.remaining.sum * W ∧
      st1.remaining = List.replicate nfiles 0 ∧
      st1.closes = List.replicate nfiles 1 ∧
      st1.partials = List.replicate nfiles [] ∧ st1.errors = 0 := by
  have hsum : st.remaining.sum = last + args.chunk_size * (nfiles - 1) := by
    rw [hshape, sum_shape]
  have hcover := output_room args st.remaining.sum hsize hfit
  obtain ⟨bodies, st1, e1, _, e3, e4, e5, e6, e7⟩ := output_from_partials_complete W junk args
    st nfiles last hW hn hshape hp hcl herr hsize _ _ rfl rfl hcover
  refine ⟨bodies, st1, e1, e3, e4, ?_, e6, e7⟩
  rw [e5, hshape]
  have hn1 : nfiles = (nfiles - 1) + 1 := by omega
  rw [List.map_append, List.map_replicate]
  simp only [List.map_cons, List.map_nil]
  rw [if_pos (by omega), if_pos (by omega)]
  conv_rhs => rw [hn1, List.replicate_succ']

/-- C5 on partial files of 4, 4 and 1 one-byte records, split into outputs of 3 records. -/
theorem output_from_partials_postcondition_witness :
    ∃ (bodies : List Stream) (st1 : Phase2),
      output_from_partials 1 [0] (sample_args 3 2)
          (sample_state [[1, 2, 3, 4], [5, 6, 7, 8], [9]] [4, 4, 1]) 3 =
        some (bodies.map (fun b => List.replicate (sample_args 3 2).write_header 0 ++ b), st1,
          (sample_state [[1, 2, 3, 4], [5, 6, 7, 8], [9]] [4, 4, 1]).remaining.sum) ∧
      (bodies.map List.length).sum =
        (sample_state [[1, 2, 3, 4], [5, 6, 7, 8], [9]] [4, 4, 1]).remaining.sum * 1 ∧
      st1.remaining = List.replicate 3 0 ∧
      st1.closes = List.replicate 3 1 ∧
      st1.partials = List.replicate 3 [] ∧ st1.errors = 0 :=
  output_from_partials_postcondition 1 [0] (sample_args 3 2)
    (sample_state [[1, 2, 3, 4], [5, 6, 7, 8], [9]] [4, 4, 1]) 3 1 (by decide) (by decide)
    (by decide) (by decide) (by decide) (by decide) (by decide) (by decide) (by decide)
    (by decide)

/-- C6. For every array of remaining counts and every index `i`, the number of draws `p` in
`[0, total)`, `total` the sum of the counts, for which the cumulative scan of `pop_and_save`
selects `i` is exactly `remaining[i]`; an index outside the array is selected by no draw. -/
theorem weighted_draw_proportional (remaining : List Nat) (i : Nat) :
    ((List.range remaining.sum).filter
        (fun p => decide (scan remaining p 0 = some i))).length = remaining.getD i 0 := by
  by_cases hi : i < remaining.length
  · have hcongr : (List.range remaining.sum).filter
          (fun p => decide (scan remaining p 0 = some i)) =
        (List.range remaining.sum).filter
          (fun p => decide ((remaining.take i).sum ≤ p ∧ p < (remaining.take (i + 1)).sum)) := by
      apply List.filter_congr
      intro p _
      have := scan_eq_some_iff remaining p 0 i
      simp only [Nat.sub_zero, Nat.zero_le, true_and] at this
      simp only [decide_eq_decide]
      rw [this]
      constructor
      · rintro ⟨_, h2, h3⟩; exact ⟨h2, h3⟩
      · rintro ⟨h2, h3⟩; exact ⟨hi, h2, h3⟩
    have hs := sum_take_succ_eq remaining i hi
    have hle := sum_take_le_sum remaining (i + 1)
    rw [hcongr, filter_range_interval _ _ _ (by omega)]
    rw [List.getD_eq_getElem _ _ hi]
    omega
  · have hnone : (List.range remaining.sum).filter
          (fun p => decide (scan remaining p 0 = some i)) = [] := by
      rw [List.filter_eq_nil_iff]
      intro p _
      have := scan_eq_some_iff remaining p 0 i
      simp only [Nat.sub_zero] at this
      simp only [decide_eq_true_eq]
      rw [this]
      rintro ⟨_, h, _⟩
      exact hi h
    rw [hnone]
    simp [List.getElem?_eq_none (Nat.le_of_not_lt hi)]

/-- C7. A call of `pop_and_save` with `total_remaining` the positive sum of the remaining
counts (and the arrays `partials`, `remaining` of one length) returns; with
`pick = next() % total_remaining`, the index it selects is the one the scan stops at, lies
inside the array, is the first index whose cumulative count exceeds `pick`, and has a count of
at least 1; afterwards only that count has changed, by one, and the counts sum to
`total_remaining - 1`, with the arrays still of one length. -/
theorem pop_and_save_selection (W : Nat) (junk : Data) (fout : Stream) (st : Phase2)
    (total_remaining : Nat) (htot : total_remaining = st.remaining.sum)
    (hpos : 0 < total_remaining) (hp : st.partials.length = st.remaining.length)
    (hc : st.closes.length = st.remaining.length) :
    ∃ idx fout1 st1,
      pop_and_save W junk fout st total_remaining = some (fout1, st1) ∧
      scan st.remaining ((rand64 st.seed).1 % total_remaining) 0 = some idx ∧
      idx < st.remaining.length ∧
      (∀ j, j < idx →
        (st.remaining.take (j + 1)).sum ≤ (rand64 st.seed).1 % total_remaining) ∧
      (rand64 st.seed).1 % total_remaining < (st.remaining.take (idx + 1)).sum ∧
      1 ≤ st.remaining.getD idx 0 ∧
      st1.remaining = st.remaining.set idx (st.remaining.getD idx 0 - 1) ∧
      st1.remaining.sum = total_remaining - 1 ∧
      st1.partials.length = st1.remaining.length ∧
      st1.closes.length = st1.remaining.length := by
  obtain ⟨idx, hidx, hscan, h1, h3, h4, hres⟩ :=
    pop_and_save_step W junk fout st total_remaining htot hpos hp hc
  have hget : st.remaining.getD idx 0 = st.remaining[idx] := List.getD_eq_getElem _ _ hidx
  have hsum := sum_set_add st.remaining idx (st.remaining[idx] - 1) hidx
  refine ⟨idx, _, _, hres, hscan, hidx, ?_, h4, by omega, ?_, ?_, ?_, ?_⟩
  · intro j hj
    exact Nat.le_trans (sum_take_mono _ _ _ (by omega)) h3
  · simp only [hget]
  · simp only []; omega
  · simp [hp]
  · simp only []
    split <;> simp [hc]

/-- C7 on `sample_merge_state` with `total_remaining = 3`. -/
theorem pop_and_save_selection_witness :
    (3 = sample_merge_state.remaining.sum ∧ 0 < 3 ∧
      sample_merge_state.partials.length = sample_merge_state.remaining.length ∧
      sample_merge_state.closes.length = sample_merge_state.remaining.length) ∧
    ∃ idx fout1 st1,
      pop_and_save 1 [0] [] sample_merge_state 3 = some (fout1, st1) ∧
      scan sample_merge_state.remaining ((rand64 sample_merge_state.seed).1 % 3) 0 = some idx ∧
      idx < sample_merge_state.remaining.length ∧
      (∀ j, j < idx →
        (sample_merge_state.remaining.take (j + 1)).sum ≤
          (rand64 sample_merge_state.seed).1 % 3) ∧
      (rand64 sample_merge_state.seed).1 % 3 < (sample_merge_state.remaining.take (idx + 1)).sum ∧
      1 ≤ sample_merge_state.remaining.getD idx 0 ∧
      st1.remaining =
        sample_merge_state.remaining.set idx (sample_merge_state.remaining.getD idx 0 - 1) ∧
      st1.remaining.sum = 3 - 1 ∧
      st1.partials.length = st1.remaining.length ∧
      st1.closes.length = st1.remaining.length :=
  ⟨by decide, pop_and_save_selection 1 [0] [] sample_merge_state 3 (by decide) (by decide)
    (by decide) (by decide)⟩

/-- C8 fails on the code when no record exists.  A run over an empty input file creates no
partial file and `output_from_partials` reads `remaining[nfiles - 1]` outside the empty array;
and on a single count of zero, `total_entries - 1` wraps, so that with
`per_file = 2^63 - 1` three output files are written where `ceil(0 / per_file) = 0`. -/
theorem multi_output_split_no_records :
    main 1 [0] (sample_args 3 0) { directory := none, input := some [] } = none ∧
    (output_from_partials 1 [0] (sample_args 9223372036854775807 0)
        (sample_state [[]] [0]) 1).map (fun r => r.1) = some [[], [], []] ∧
    (main 1 [0]
        { verbose := false, per_file := 9223372036854775807, chunk_size := 0, read_header := 0,
          write_header := 0 }
        { directory := none, input := some [10, 20, 30] }).map (fun r => r.1) =
      some [[], [], []] := by
  decide

/-- C9 fails on the code at `T = 0`. With `per_file = 0`, a run over an input that holds no
whole record (here a single byte where records are two bytes wide, and a directory of two
empty files) ends Phase 1 with no partial file, and Phase 2 reads `remaining[nfiles - 1]`
outside the empty array: no output file is produced, where the claim has one output that
receives all 0 records. -/
theorem single_output_no_records :
    (read_all_input_files 2 (sample_args 0 0) { directory := none, input := some [7] }
        1070372).map (fun r => (r.1, r.2.nfiles, r.2.files)) = some (0, 0, []) ∧
    main 2 [0, 0] (sample_args 0 0) { directory := none, input := some [7] } = none ∧
    (read_all_input_files 1 (sample_args 0 16)
        { directory := some [(['a'], []), (['b'], [])], input := none }
        1070372).map (fun r => (r.1, r.2.nfiles, r.2.files)) = some (0, 0, []) ∧
    main 1 [0] (sample_args 0 16)
      { directory := some [(['a'], []), (['b'], [])], input := none } = none := by
  refine ⟨by decide, by decide, by decide, by decide⟩

/-- The part of C9 that holds. With `per_file = 0`, Phase 2 on a non-empty array of counts of
total `T` (all `chunk_size` but the last, the partial files holding exactly that many
records) returns with exactly one output file: the zero header followed by `T` records. -/
theorem single_output_nonempty (W : Nat) (junk : Data) (args : arguments) (st : Phase2)
    (nfiles last : Nat) (hW : 0 < W) (hn : 0 < nfiles)
    (hshape : st.remaining = List.replicate (nfiles - 1) args.chunk_size ++ [last])
    (hp : st.partials.map List.length = st.remaining.map (fun r => r * W))
    (hcl : st.closes = List.replicate st.remaining.length 0) (herr : st.errors = 0)
    (hsize : st.remaining.sum < 2 ^ 64) (hpf : args.per_file = 0) :
    ∃ (body : Stream) (st1 : Phase2),
      output_from_partials W junk args st nfiles =
        some ([List.replicate args.write_header 0 ++ body], st1, st.remaining.sum) ∧
      body.length = st.remaining.sum * W := by
  obtain ⟨bodies, st1, e1, e2, e3, _⟩ := output_from_partials_complete W junk args st nfiles last
    hW hn hshape hp hcl herr hsize st.remaining.sum 1 (by simp [hpf])
    (cnt_output_files_single args _ hpf).symm (by omega)
  have hl : bodies.length = 1 := by
    have := congrArg List.length e2
    simpa using this
  obtain ⟨body, hb⟩ := List.length_eq_one.mp hl
  subst hb
  exact ⟨body, st1, by simpa using e1, by simpa using e3⟩

/-- The example of C9: `per_file = 0` and 9 one-byte records in partial files of 4, 4 and 1
records give one output file of 9 records. -/
theorem single_output_nonempty_example :
    ∃ (body : Stream) (st1 : Phase2),
      output_from_partials 1 [0] (sample_args 0 0)
          (sample_state [[1, 2, 3, 4], [5, 6, 7, 8], [9]] [4, 4, 1]) 3 =
        some ([List.replicate (sample_args 0 0).write_header 0 ++ body], st1,
          (sample_state [[1, 2, 3, 4], [5, 6, 7, 8], [9]] [4, 4, 1]).remaining.sum) ∧
      body.length = (sample_state [[1, 2, 3, 4], [5, 6, 7, 8], [9]] [4, 4, 1]).remaining.sum * 1 :=
  single_output_nonempty 1 [0] (sample_args 0 0)
    (sample_state [[1, 2, 3, 4], [5, 6, 7, 8], [9]] [4, 4, 1]) 3 1 (by decide) (by decide)
    (by decide) (by decide) (by decide) (by decide) (by decide) (by decide)

/-- C10. With `per_file = p > 0` and `write_header = h`, Phase 2 on a non-empty array of
counts of total `T` (all `chunk_size` but the last, the partial files holding exactly that
many `W`-byte records) returns with as many output files as `cnt_output_files` says, and
every one of them is `h` zero bytes followed by whole records only: output `j` takes
`min p (T - j * p)` records, so that the header takes no part of the quota and an output
file filled to capacity is `h + p * W` bytes long.  The records written are
`min T (files * p)`; with at least one record and a file count below `2^31` there are
`ceil(T / p) >= 1` files and all `T` records are written. -/
theorem header_accounting (W : Nat) (junk : Data) (args : arguments) (st : Phase2)
    (nfiles last : Nat) (hW : 0 < W) (hn : 0 < nfiles)
    (hshape : st.remaining = List.replicate (nfiles - 1) args.chunk_size ++ [last])
    (hp : st.partials.map List.length = st.remaining.map (fun r => r * W))
    (hcl : st.closes = List.replicate st.remaining.length 0) (herr : st.errors = 0)
    (hsize : st.remaining.sum < 2 ^ 64) (hpf : 0 < args.per_file) :
    ∃ (bodies : List Stream) (st1 : Phase2) (saved : Nat),
      output_from_partials W junk args st nfiles =
        some (bodies.map (fun b => List.replicate args.write_header 0 ++ b), st1, saved) ∧
      bodies.length = (cnt_output_files args st.remaining.sum).toNat ∧
      saved = min st.remaining.sum (bodies.length * args.per_file) ∧
      (bodies.map List.length).sum = saved * W ∧
      (∀ j, j < bodies.length → ∃ body : Stream,
        bodies[j]? = some body ∧
        body.length = min args.per_file (st.remaining.sum - j * args.per_file) * W ∧
        ((j + 1) * args.per_file ≤ st.remaining.sum →
          (List.replicate args.write_header 0 ++ body).length =
            args.write_header + args.per_file * W)) ∧
      (1 ≤ st.remaining.sum → 1 + (st.remaining.sum - 1) / args.per_file < 2 ^ 31 →
        bodies.length = (st.remaining.sum + args.per_file - 1) / args.per_file ∧
        1 ≤ bodies.length ∧ saved = st.remaining.sum) := by
  have hsum : st.remaining.sum = last + args.chunk_size * (nfiles - 1) := by
    rw [hshape, sum_shape]
  have hpf0 : ¬ args.per_file = 0 := by omega
  obtain ⟨bodies, st1, e1, e2, _⟩ := output_from_partials_spec W junk args st nfiles last hW hn
    hshape hp hcl herr (by omega) st.remaining.sum args.per_file _ hsum
    (by rw [if_neg hpf0]) rfl
  have hlen : bodies.length = (cnt_output_files args st.remaining.sum).toNat := by
    have := congrArg List.length e2
    simpa using this
  rw [← hlen] at e1 e2
  refine ⟨bodies, st1, _, e1, hlen, rfl, ?_, ?_, ?_⟩
  · rw [e2]
    have := sum_min_range st.remaining.sum args.per_file 0 bodies.length (Nat.zero_le _)
    simp only [Nat.zero_add, Nat.sub_zero] at this
    rw [show (fun j => min args.per_file (st.remaining.sum - j * args.per_file) * W) =
        (fun x => x * W) ∘ (fun j => min args.per_file (st.remaining.sum - j * args.per_file))
        from rfl, ← List.map_map, sum_map_mul, this]
  · intro j hjb
    have hlenj : (bodies.map List.length)[j]? = some (bodies[j]).length := by
      rw [List.getElem?_map, List.getElem?_eq_getElem hjb]; rfl
    rw [e2, List.getElem?_map] at hlenj
    have hjr : j < (List.range bodies.length).length := by simpa using hjb
    rw [List.getElem?_eq_getElem hjr, List.getElem_range] at hlenj
    simp only [Option.map_some', Option.some.injEq] at hlenj
    refine ⟨bodies[j], List.getElem?_eq_getElem hjb, hlenj.symm, ?_⟩
    intro hfull
    rw [List.length_append, List.length_replicate, ← hlenj]
    rw [Nat.add_mul, Nat.one_mul] at hfull
    congr 2
    omega
  · intro hT hfit
    have hc := cnt_output_files_fit args st.remaining.sum hpf hT hsize hfit
    obtain ⟨-, c2, -⟩ := cnt_output_files_pos st.remaining.sum args.per_file hpf hT hsize
    have hbl : bodies.length = 1 + (st.remaining.sum - 1) / args.per_file := by rw [hlen, hc]
    refine ⟨by rw [hbl, one_add_pred_div _ _ hpf hT], by rw [hbl]; exact Nat.le_add_right 1 _,
      ?_⟩
    rw [hbl]
    exact Nat.min_eq_left c2

/-- C10 at `write_header = 16`, `per_file = 5` and 10 one-byte records. -/
theorem header_accounting_witness :
    ∃ (bodies : List Stream) (st1 : Phase2) (saved : Nat),
      output_from_partials 1 [0] (sample_args 5 16)
          (sample_state [[1, 2, 3, 4], [5, 6, 7, 8], [9, 10]] [4, 4, 2]) 3 =
        some (bodies.map (fun b => List.replicate (sample_args 5 16).write_header 0 ++ b), st1,
          saved) ∧
      bodies.length = (cnt_output_files (sample_args 5 16)
        (sample_state [[1, 2, 3, 4], [5, 6, 7, 8], [9, 10]] [4, 4, 2]).remaining.sum).toNat ∧
      saved = min (sample_state [[1, 2, 3, 4], [5, 6, 7, 8], [9, 10]] [4, 4, 2]).remaining.sum
        (bodies.length * (sample_args 5 16).per_file) ∧
      (bodies.map List.length).sum = saved * 1 ∧
      (∀ j, j < bodies.length → ∃ body : Stream,
        bodies[j]? = some body ∧
        body.length = min (sample_args 5 16).per_file
          ((sample_state [[1, 2, 3, 4], [5, 6, 7, 8], [9, 10]] [4, 4, 2]).remaining.sum -
            j * (sample_args 5 16).per_file) * 1 ∧
        ((j + 1) * (sample_args 5 16).per_file ≤
            (sample_state [[1, 2, 3, 4], [5, 6, 7, 8], [9, 10]] [4, 4, 2]).remaining.sum →
          (List.replicate (sample_args 5 16).write_header 0 ++ body).length =
            (sample_args 5 16).write_header + (sample_args 5 16).per_file * 1)) ∧
      (1 ≤ (sample_state [[1, 2, 3, 4], [5, 6, 7, 8], [9, 10]] [4, 4, 2]).remaining.sum →
        1 + ((sample_state [[1, 2, 3, 4], [5, 6, 7, 8], [9, 10]] [4, 4, 2]).remaining.sum - 1) /
          (sample_args 5 16).per_file < 2 ^ 31 →
        bodies.length =
          ((sample_state [[1, 2, 3, 4], [5, 6, 7, 8], [9, 10]] [4, 4, 2]).remaining.sum +
            (sample_args 5 16).per_file - 1) / (sample_args 5 16).per_file ∧
        1 ≤ bodies.length ∧
        saved = (sample_state [[1, 2, 3, 4], [5, 6, 7, 8], [9, 10]] [4, 4, 2]).remaining.sum) :=
  header_accounting 1 [0] (sample_args 5 16)
    (sample_state [[1, 2, 3, 4], [5, 6, 7, 8], [9, 10]] [4, 4, 2]) 3 2 (by decide) (by decide)
    (by decide) (by decide) (by decide) (by decide) (by decide) (by decide)

/-- C13. On a 64-bit state `s`, `rand64` computes `s ^= s >> 12; s ^= s << 25; s ^= s >> 27`
with every step reduced modulo `2^64`, keeps the result as the new state and returns it
multiplied by `2685821657736338717` modulo `2^64`; the multiplier is odd; `main` starts the
generator in state `1070372`; and the value of the `n`-th call is a function of `n` alone:
it is computed from the state after `n` calls, which comes from the state after `n - 1`. -/
theorem rand64_definition (s : Nat) (hs : s < 2 ^ 64) :
    (let s1 := (s ^^^ (s >>> 12)) % 2 ^ 64
     let s2 := (s1 ^^^ (s1 <<< 25)) % 2 ^ 64
     let s3 := (s2 ^^^ (s2 >>> 27)) % 2 ^ 64
     rand64 s = ((s3 * 2685821657736338717) % 2 ^ 64, s3) ∧ s3 < 2 ^ 64) ∧
    2685821657736338717 % 2 = 1 ∧
    (∀ (W : Nat) (junk : Data) (args : arguments) (src : Sources),
      main W junk args src =
        (read_all_input_files W args src 1070372).bind
          (fun r => output_from_partials W junk args (open_partials args r.1 r.2) r.2.nfiles)) ∧
    (∀ n, rand_state (n + 1) 1070372 = (rand64 (rand_state n 1070372)).2 ∧
      rand_state n 1070372 < 2 ^ 64 ∧
      rand_values (n + 1) 1070372 =
        rand_values n 1070372 ++ [(rand64 (rand_state n 1070372)).1]) := by
  have h1 : s ^^^ (s >>> 12) < 2 ^ 64 := xor_shiftRight_lt s 12 64 hs
  have h2 : (s ^^^ (s >>> 12)) ^^^ (((s ^^^ (s >>> 12)) <<< 25) % 2 ^ 64) < 2 ^ 64 :=
    xor_shiftLeft_lt _ 25 64 h1
  have h3 := xor_shiftRight_lt _ 27 64 h2
  refine ⟨?_, by decide, ?_, ?_⟩
  · simp only []
    rw [Nat.mod_eq_of_lt h1, ← xor_shiftLeft_mod _ 25 64 h1, Nat.mod_eq_of_lt h3]
    exact ⟨rfl, h3⟩
  · intro W junk args src
    unfold main
    cases read_all_input_files W args src 1070372 with
    | none => rfl
    | some r => rfl
  · intro n
    exact ⟨rand_state_succ n _, rand_state_lt n _ (by decide), rand_values_succ n _⟩

/-- C13 at the initial state `1070372`. -/
theorem rand64_definition_witness :
    (let s1 := (1070372 ^^^ (1070372 >>> 12)) % 2 ^ 64
     let s2 := (s1 ^^^ (s1 <<< 25)) % 2 ^ 64
     let s3 := (s2 ^^^ (s2 >>> 27)) % 2 ^ 64
     rand64 1070372 = ((s3 * 2685821657736338717) % 2 ^ 64, s3) ∧ s3 < 2 ^ 64) ∧
    2685821657736338717 % 2 = 1 ∧
    (∀ (W : Nat) (junk : Data) (args : arguments) (src : Sources),
      main W junk args src =
        (read_all_input_files W args src 1070372).bind
          (fun r => output_from_partials W junk args (open_partials args r.1 r.2) r.2.nfiles)) ∧
    (∀ n, rand_state (n + 1) 1070372 = (rand64 (rand_state n 1070372)).2 ∧
      rand_state n 1070372 < 2 ^ 64 ∧
      rand_values (n + 1) 1070372 =
        rand_values n 1070372 ++ [(rand64 (rand_state n 1070372)).1]) :=
  rand64_definition 1070372 (by decide)

/-- C20. The state update of `rand64` is a bijection of the 64-bit words, it maps 0 to 0 and
nothing else to 0; from the seed `1070372` the state is a nonzero 64-bit word after every
number of calls; and every value `rand64` returns from there on is nonzero. -/
theorem rand64_never_degenerates :
    Set.BijOn (fun s => (rand64 s).2) (Set.Iio (2 ^ 64)) (Set.Iio (2 ^ 64)) ∧
    (rand64 0).2 = 0 ∧ (∀ s, (rand64 s).2 = 0 → s = 0) ∧
    (∀ n, rand_state n 1070372 ≠ 0 ∧ rand_state n 1070372 < 2 ^ 64) ∧
    (∀ n, (rand64 (rand_state n 1070372)).1 ≠ 0) ∧
    (∀ n, ∀ v ∈ rand_values n 1070372, v ≠ 0) := by
  have hmaps : Set.MapsTo (fun s => (rand64 s).2) (Set.Iio (2 ^ 64)) (Set.Iio (2 ^ 64)) :=
    fun s hs => rand64_state_lt s hs
  have hinj : Set.InjOn (fun s => (rand64 s).2) (Set.Iio (2 ^ 64)) :=
    fun x _ y _ h => rand64_state_injective x y h
  have hout : ∀ n, (rand64 (rand_state n 1070372)).1 ≠ 0 := fun n =>
    rand64_value_ne_zero _ (rand_state_ne_zero n _ (by decide)) (rand_state_lt n _ (by decide))
  refine ⟨((Set.finite_Iio _).injOn_iff_bijOn_of_mapsTo hmaps).mp hinj, by decide, ?_, ?_,
    hout, ?_⟩
  · intro s h
    by_contra hne
    exact rand64_state_ne_zero s hne h
  · intro n
    exact ⟨rand_state_ne_zero n _ (by decide), rand_state_lt n _ (by decide)⟩
  · intro n
    induction n with
    | zero => intro v hv; simp [rand_values] at hv
    | succ n ih =>
      intro v hv
      rw [rand_values_succ, List.mem_append, List.mem_singleton] at hv
      rcases hv with hv | hv
      · exact ih v hv
      · rw [hv]; exact hout n

/-- C14 fails on the code. One partial file that holds the single record `5` while its count
says 2, one-byte records, `per_file = 0`: the second draw reads nothing, the message is
printed once, and `pop_and_save` still appends a record (the content of its local buffer,
here `99`), decrements the count and closes the file; `output_from_partials` returns normally
with an output of two records.  A single call on an empty partial file with count 1 does the
same. -/
theorem read_failure_not_fatal :
    output_from_partials 1 [99] (sample_args 0 0) (sample_state [[5]] [2]) 1 =
      some ([[5, 99]],
        { seed := rand_state 2 1070372, partials := [[]], remaining := [0], closes := [1],
          errors := 1 }, 2) ∧
    pop_and_save 1 [99] [7] (sample_state [[]] [1]) 1 =
      some ([7, 99],
        { seed := rand_state 1 1070372, partials := [[]], remaining := [0], closes := [1],
          errors := 1 }) := by
  decide

/-- C15 fails on the code. An input file of two 2-byte records followed by one more byte,
chunk size 4: the byte is dropped (the partial file holds 4 bytes) and the events of Phase 1
are one read and one spill, with no printed line when `verbose` is off, and with the line
`Read 2 entries and saved to` file 0 as the only one when it is on. -/
theorem no_fragment_warning_example :
    read_all_events 2
        { verbose := false, per_file := 0, chunk_size := 4, read_header := 0, write_header := 0 }
        { directory := none, input := some [1, 1, 2, 2, 3] } 1070372 =
      [Event.read 0 4 2, Event.spill 2 0] ∧
    read_all_events 2
        { verbose := true, per_file := 0, chunk_size := 4, read_header := 0, write_header := 0 }
        { directory := none, input := some [1, 1, 2, 2, 3] } 1070372 =
      [Event.read 0 4 2, Event.spill 2 0, Event.print (Message.read_saved 2 0)] ∧
    (read_all_input_files 2
        { verbose := false, per_file := 0, chunk_size := 4, read_header := 0, write_header := 0 }
        { directory := none, input := some [1, 1, 2, 2, 3] } 1070372).map
        (fun r => r.2.files.map (fun f => f.2.length)) = some [4] := by
  decide

/-- C15 as amended. For every configuration and input, whatever Phase 1 prints is the line
`Read count entries and saved to file` of one of its spills, and it is printed in verbose
mode only: nothing is printed about a discarded trailing fragment. -/
theorem fragment_discarded_silently (W : Nat) (args : arguments) (src : Sources) (seed : Nat)
    (m : Message) (h : Event.print m ∈ read_all_events W args src seed) :
    args.verbose = true ∧ ∃ count file, m = Message.read_saved count file ∧
      Event.spill count file ∈ read_all_events W args src seed :=
  prints_ok_all W args src seed m h

/-- The amended C15 on the verbose run of `no_fragment_warning_example`. -/
theorem fragment_discarded_silently_witness :
    Event.print (Message.read_saved 2 0) ∈ read_all_events 2
        { verbose := true, per_file := 0, chunk_size := 4, read_header := 0, write_header := 0 }
        { directory := none, input := some [1, 1, 2, 2, 3] } 1070372 ∧
    (({ verbose := true, per_file := 0, chunk_size := 4, read_header := 0,
        write_header := 0 } : arguments).verbose = true ∧
      ∃ count file, Message.read_saved 2 0 = Message.read_saved count file ∧
        Event.spill count file ∈ read_all_events 2
          { verbose := true, per_file := 0, chunk_size := 4, read_header := 0,
            write_header := 0 }
          { directory := none, input := some [1, 1, 2, 2, 3] } 1070372) :=
  ⟨by decide, fragment_discarded_silently 2
    { verbose := true, per_file := 0, chunk_size := 4, read_header := 0, write_header := 0 }
    { directory := none, input := some [1, 1, 2, 2, 3] } 1070372 (Message.read_saved 2 0)
    (by decide)⟩

/-- C17 fails on the code. With no partial file (`nfiles = 0`), `output_from_partials` reads
`remaining[nfiles - 1]`, outside the array, whatever the configuration; so the run over an
empty input file, in which Phase 1 rightly skips the final spill and creates no partial
file, does not produce the one empty output of the claim. -/
theorem empty_run_reads_outside :
    (∀ (W : Nat) (junk : Data) (args : arguments) (st : Phase2),
      output_from_partials W junk args st 0 = none) ∧
    (read_all_input_files 1 (sample_args 0 0) { directory := none, input := some [] }
        1070372).map (fun r => (r.1, r.2.nfiles, r.2.files)) = some (0, 0, []) ∧
    read_all_events 1 (sample_args 0 0) { directory := none, input := some [] } 1070372 =
      [Event.read 0 4 0] ∧
    main 1 [0] (sample_args 0 0) { directory := none, input := some [] } = none := by
  refine ⟨fun W junk args st => ?_, by decide, by decide, by decide⟩
  unfold output_from_partials
  rfl

/-- C18. For a chunk of 3 records the shuffle of `shuffle_and_save` is the map `shuffle_with`
applied to the three values `next() % 3`; over the `3^3 = 27` possible triples of such
values, 4 leave the chunk `a, b, c` in its order and 5 give the order `b, a, c`, both being
permutations of the chunk: the 27 triples are not spread evenly over the 6 orders. -/
theorem shuffle_not_uniform :
    (∀ st : Phase1, (shuffle_and_save 3 st).data =
      shuffle_with ((rand_values 3 st.seed).map (fun r => r % 3)) st.data) ∧
    (all_draws 3 3).length = 27 ∧
    (∀ ds ∈ all_draws 3 3, ds.length = 3 ∧ ∀ d ∈ ds, d < 3) ∧
    draws_giving 3 [[0], [1], [2]] [[0], [1], [2]] = 4 ∧
    draws_giving 3 [[0], [1], [2]] [[1], [0], [2]] = 5 ∧
    List.Perm [[1], [0], [2]] ([[0], [1], [2]] : List Data) ∧
    ((List.map (fun t => draws_giving 3 [[0], [1], [2]] t)
      [[[0], [1], [2]], [[0], [2], [1]], [[1], [0], [2]], [[1], [2], [0]], [[2], [0], [1]],
        [[2], [1], [0]]]) = [4, 5, 5, 5, 4, 4]) := by
  refine ⟨fun st => shuffle_and_save_with 3 st, by decide, by decide, by decide, by decide,
    by decide, by decide⟩

/-- C19 fails when the output files number `2^31` or more. Chunk size `2^31`, two partial
files of `2^31` one-byte records each with their exact counts, `per_file = 2`: the file count
`1 + (2^32 - 1) / 2 = 2^31` is stored in the `int` `cnt_output_files` as `-2^31`, so Phase 2
writes no output file and draws no record: the records drawn from the first partial file are
none, while that file holds `2^31` of them. -/
theorem merge_draws_nothing_on_file_count :
    (0 < 2 ∧
      long_files.remaining = List.replicate (2 - 1) (long_args 2).chunk_size ++ [2147483648] ∧
      long_files.partials.map List.length = long_files.remaining.map (fun r => r * 1) ∧
      long_files.closes = List.replicate long_files.remaining.length 0 ∧
      long_files.errors = 0 ∧ long_files.remaining.sum = 4294967296) ∧
    cnt_output_files (long_args 2) 4294967296 = -2147483648 ∧
    (output_from_partials 1 [0] (long_args 2) long_files 2).map
      (fun r => (r.1, r.2.2)) = some ([], 0) ∧
    phase2_draws 1 [0] (long_args 2) long_files 2 = [] ∧
    drawn_from 0 (phase2_draws 1 [0] (long_args 2) long_files 2) = [] ∧
    (records 1 (long_files.partials.getD 0 [])).length = 2147483648 := by
  refine ⟨⟨by decide, by decide, ?_, by decide, by decide, by decide⟩, by decide, by decide,
    by decide, by decide, ?_⟩
  · simp only [long_files, sample_state, List.map_cons, List.map_nil, List.length_replicate,
      Nat.mul_one]
  · have h : long_files.partials.getD 0 [] = List.replicate 2147483648 7 := by
      simp only [long_files, sample_state, List.getD_cons_zero]
    rw [h, records_length _ _ (by decide), List.length_replicate]

/-- C19, for fewer than `2^31` output files. Phase 2 on a non-empty array of counts, all
`chunk_size` but the last, with partial files holding exactly that many `W`-byte records,
from any generator state, when the number of output files `1 + (total - 1) / per_file` is
below `2^31`: the records written to the output files, headers left out and the files taken
in order, are the records of the draws in order; there are as many draws as records in
total, each takes one whole record from one of the partial files; and for every partial file
`i` the records drawn from it, in the order of the draws, are exactly the records of that
file in their order in the file. -/
theorem merge_preserves_order (W : Nat) (junk : Data) (args : arguments) (st : Phase2)
    (nfiles last : Nat) (hW : 0 < W) (hn : 0 < nfiles)
    (hshape : st.remaining = List.replicate (nfiles - 1) args.chunk_size ++ [last])
    (hp : st.partials.map List.length = st.remaining.map (fun r => r * W))
    (hcl : st.closes = List.replicate st.remaining.length 0) (herr : st.errors = 0)
    (hsize : st.remaining.sum < 2 ^ 64)
    (hfit : args.per_file ≠ 0 → 1 + (st.remaining.sum - 1) / args.per_file < 2 ^ 31) :
    ∃ (bodies : List Stream) (st1 : Phase2),
      output_from_partials W junk args st nfiles =
        some (bodies.map (fun b => List.replicate args.write_header 0 ++ b), st1,
          st.remaining.sum) ∧
      bodies.flatten = ((phase2_draws W junk args st nfiles).map Prod.snd).flatten ∧
      (phase2_draws W junk args st nfiles).length = st.remaining.sum ∧
      (∀ d ∈ phase2_draws W junk args st nfiles, d.1 < nfiles ∧ d.2.length = W) ∧
      ∀ i, i < nfiles →
        drawn_from i (phase2_draws W junk args st nfiles) = records W (st.partials.getD i []) := by
  have hlen : st.remaining.length = nfiles := by
    rw [hshape]; simp; omega
  obtain ⟨hd, ho⟩ := phase2_draws_eq W junk args st nfiles last hn hshape hsize
  have hroom := output_room args st.remaining.sum hsize hfit
  obtain ⟨bodies, st1, e1, e2, e3, e4, e5, e6⟩ := output_draws_spec W st.remaining junk args
    st.remaining.sum (if args.per_file = 0 then st.remaining.sum else args.per_file) hW
    (cnt_output_files args st.remaining.sum).toNat st 0 []
    (merge_inv_init W st hp hcl herr)
  simp only [Nat.zero_add, List.nil_append, Nat.sub_zero] at e1 e3 e6
  rw [Nat.min_eq_left hroom] at e1 e3 e6
  obtain ⟨-, -, f3, -⟩ := merge_inv_final W st.remaining st.remaining.sum st1 e3
  rw [← hd] at e2 e4 e5 e6
  refine ⟨bodies, st1, by rw [ho]; exact e1, e2, e6, ?_, ?_⟩
  · intro d hd
    have := e4 d hd
    rw [hlen] at this
    exact this
  · intro i hi
    have h5 := e5 i
    have hempty : st1.partials.getD i [] = [] := by
      rw [f3]
      simp only [List.getD_eq_getElem?_getD, List.getElem?_replicate]
      split <;> rfl
    rw [hempty, List.append_nil] at h5
    rw [← h5]
    refine (records_flatten W _ hW ?_).symm
    intro x hx
    unfold drawn_from at hx
    obtain ⟨d, hd1, hd2⟩ := List.mem_map.mp hx
    rw [← hd2]
    exact (e4 d (List.mem_of_mem_filter hd1)).2

/-- C19 on partial files of 4, 4 and 1 one-byte records, split into outputs of 3 records. -/
theorem merge_preserves_order_witness :
    ∃ (bodies : List Stream) (st1 : Phase2),
      output_from_partials 1 [0] (sample_args 3 2)
          (sample_state [[1, 2, 3, 4], [5, 6, 7, 8], [9]] [4, 4, 1]) 3 =
        some (bodies.map (fun b => List.replicate (sample_args 3 2).write_header 0 ++ b), st1,
          (sample_state [[1, 2, 3, 4], [5, 6, 7, 8], [9]] [4, 4, 1]).remaining.sum) ∧
      bodies.flatten = ((phase2_draws 1 [0] (sample_args 3 2)
        (sample_state [[1, 2, 3, 4], [5, 6, 7, 8], [9]] [4, 4, 1]) 3).map Prod.snd).flatten ∧
      (phase2_draws 1 [0] (sample_args 3 2)
        (sample_state [[1, 2, 3, 4], [5, 6, 7, 8], [9]] [4, 4, 1]) 3).length =
        (sample_state [[1, 2, 3, 4], [5, 6, 7, 8], [9]] [4, 4, 1]).remaining.sum ∧
      (∀ d ∈ phase2_draws 1 [0] (sample_args 3 2)
        (sample_state [[1, 2, 3, 4], [5, 6, 7, 8], [9]] [4, 4, 1]) 3, d.1 < 3 ∧ d.2.length = 1) ∧
      ∀ i, i < 3 →
        drawn_from i (phase2_draws 1 [0] (sample_args 3 2)
          (sample_state [[1, 2, 3, 4], [5, 6, 7, 8], [9]] [4, 4, 1]) 3) =
        records 1 ((sample_state [[1, 2, 3, 4], [5, 6, 7, 8], [9]] [4, 4, 1]).partials.getD i []) :=
  merge_preserves_order 1 [0] (sample_args 3 2)
    (sample_state [[1, 2, 3, 4], [5, 6, 7, 8], [9]] [4, 4, 1]) 3 1 (by decide) (by decide)
    (by decide) (by decide) (by decide) (by decide) (by decide) (by decide)

end Byteshuf
